import Mathlib

/-!
Verification of the "visualizations" random-HTML HTTP server (`serve.py`).

The server's core logic is pure string/path manipulation plus filesystem
queries.  We embed it shallowly:

* A Python `str` is modelled as its UTF-8 byte sequence, `PyStr := List Nat`
  (`urllib.parse.unquote` re-decodes percent-escaped bytes as UTF-8 with
  `errors="replace"`; that replacement only rewrites bytes ≥ 0x80 into other
  bytes ≥ 0x80, so it is invisible to every ASCII-level check the server
  performs, and we model `unquote` as plain byte-level `%HH` substitution).
* The POSIX filesystem is modelled as a finite association list from absolute
  paths (component lists) to nodes (regular file with contents, directory, or
  symbolic link).  `Path.resolve(strict=True)` is modelled by a left-to-right
  resolver with a symlink-traversal fuel; exhausting the fuel models the
  OS's `ELOOP` error, and any failure is `none` (a raised `OSError`).
* The stock `http.server` transport is out of scope; an HTTP response is
  modelled as status code, the application-level headers sent, and body bytes
  (`send_response` additionally emits `Server:`/`Date:` headers on every
  response; they are uniform noise and not modelled).
-/

/-- A Python `str`, as its UTF-8 byte sequence. -/
abbrev PyStr := List Nat

/-- UTF-8 bytes of one code point. -/
def charBytes (c : Char) : List Nat :=
  let n := c.toNat
  if n < 0x80 then [n]
  else if n < 0x800 then [0xC0 + n / 0x40, 0x80 + n % 0x40]
  else if n < 0x10000 then [0xE0 + n / 0x1000, 0x80 + (n / 0x40) % 0x40, 0x80 + n % 0x40]
  else [0xF0 + n / 0x40000, 0x80 + (n / 0x1000) % 0x40, 0x80 + (n / 0x40) % 0x40, 0x80 + n % 0x40]

/-- Convert a Lean string literal to its `PyStr` (UTF-8 bytes). -/
def pyb (s : String) : PyStr := s.data.flatMap charBytes

/-- Python substring test `needle in haystack`. -/
def isSubB (needle : PyStr) : PyStr → Bool
  | [] => needle.isPrefixOf []
  | b :: rest => needle.isPrefixOf (b :: rest) || isSubB needle rest

/-- Python `s.split(d)` on a one-byte separator (list of fields, empties kept). -/
def splitByte (d : Nat) : PyStr → List PyStr
  | [] => [[]]
  | b :: rest =>
    match splitByte d rest with
    | [] => if b = d then [[], []] else [[b]]
    | h :: t => if b = d then [] :: h :: t else (b :: h) :: t

/-- Python `s.strip("/")`-style strip of one byte from both ends. -/
def stripByte (d : Nat) (s : PyStr) : PyStr :=
  ((s.dropWhile (· = d)).reverse.dropWhile (· = d)).reverse

/-- Python `s.find(d)` for a single byte, as an `Option` index. -/
def findByte (d : Nat) (s : PyStr) : Option Nat := s.findIdx? (· = d)

/-- Python `s.rfind(d)` for a single byte, as an `Option` index. -/
def rfindByte (d : Nat) (s : PyStr) : Option Nat :=
  (s.reverse.findIdx? (· = d)).map (fun j => s.length - 1 - j)

/-- Python `s.split(d, 1)`: split at the first occurrence, if any. -/
def splitFirst (d : Nat) (s : PyStr) : Option (PyStr × PyStr) :=
  (findByte d s).map (fun i => (s.take i, s.drop (i + 1)))

/-- Everything before the first occurrence of byte `d` (the whole string if absent). -/
def takeBefore (d : Nat) (s : PyStr) : PyStr :=
  match findByte d s with
  | some i => s.take i
  | none => s

/-- Hexadecimal digit value of an ASCII byte, if it is one. -/
def hexVal (b : Nat) : Option Nat :=
  if 48 ≤ b ∧ b ≤ 57 then some (b - 48)          -- 0-9
  else if 65 ≤ b ∧ b ≤ 70 then some (b - 55)     -- A-F
  else if 97 ≤ b ∧ b ≤ 102 then some (b - 87)    -- a-f
  else none

/-- `urllib.parse.unquote`, at the byte level: each valid `%HH` becomes the byte
`0xHH`; an invalid escape is left verbatim.  (CPython additionally re-decodes
the byte runs as UTF-8 with `errors="replace"`, which never touches ASCII.) -/
def unquote : PyStr → PyStr
  | [] => []
  | 37 :: a :: b :: rest =>                       -- 37 = percent sign
    match hexVal a, hexVal b with
    | some ha, some hb => (ha * 16 + hb) :: unquote rest
    | _, _ => 37 :: unquote (a :: b :: rest)
  | b :: rest => b :: unquote rest

/-- `html.escape(s, quote=True)`: escape ampersand, angle brackets and both quotes. -/
def escByte (b : Nat) : List Nat :=
  if b = 38 then pyb "&amp;"                      -- ampersand
  else if b = 60 then pyb "&lt;"                  -- less-than
  else if b = 62 then pyb "&gt;"                  -- greater-than
  else if b = 34 then pyb "&quot;"                -- double quote
  else if b = 39 then pyb "&#x27;"                -- single quote
  else [b]

/-- `html.escape(s)` (with `quote=True`, the default). -/
def escapeQ (s : PyStr) : PyStr := s.flatMap escByte

/-- `html.escape(s, quote=False)`: only ampersand and angle brackets. -/
def escapeNQ (s : PyStr) : PyStr := s.flatMap (fun b =>
  if b = 38 then pyb "&amp;"
  else if b = 60 then pyb "&lt;"
  else if b = 62 then pyb "&gt;"
  else [b])

/-- ASCII letter test (CPython's `str.isalpha` restricted to ASCII; bytes ≥ 0x80
come from non-ASCII code points, whose first byte fails `isascii()`). -/
def isAsciiAlpha (b : Nat) : Bool :=
  (65 ≤ b && b ≤ 90) || (97 ≤ b && b ≤ 122)

/-- Membership of a byte in `urllib.parse.scheme_chars` (letters, digits, `+-.`). -/
def isSchemeByte (b : Nat) : Bool :=
  isAsciiAlpha b || (48 ≤ b && b ≤ 57) || b = 43 || b = 45 || b = 46

/-- The scheme-stripping step of `urllib.parse.urlsplit`: drop `scheme:` when the
text before the first colon is a well-formed scheme. -/
def stripScheme (url : PyStr) : PyStr :=
  match findByte 58 url with                      -- 58 = colon
  | some i =>
    if 0 < i ∧ isAsciiAlpha (url.headD 0) ∧ ((url.drop 1).take (i - 1)).all isSchemeByte then
      url.drop (i + 1)
    else url
  | none => url

/-- The netloc-dropping step of `urlsplit` (`_splitnetloc`): when the URL starts
with `//`, drop everything up to the next `/`, `?` or `#`. -/
def dropNetloc (url : PyStr) : PyStr :=
  match (url.drop 2).findIdx? (fun b => b = 47 || b = 63 || b = 35) with
  | some j => url.drop (2 + j)
  | none => []

/-- `urllib.parse.urlsplit` reduced to the `(path, query)` pair: remove the
unsafe bytes TAB/CR/LF, strip a scheme, drop a `//netloc`, cut the fragment at
the first `#`, then split off the query at the first `?`.  This is the TOTAL
approximation: it omits the leading C0-control/space lstrip of patched CPython
and the ValueError raised on a bracket-unbalanced netloc, and is sound only on
URLs where the full parser completes and the lstrip is a no-op.  The faithful
parser is `urlsplitPQ_strict` below, which agrees with this one on exactly
those URLs (`urlsplitPQ_strict_agree`).  (The IDNA checks of `_checknetloc`,
which can only reject non-ASCII netlocs, are not modelled there either.) -/
def urlsplitPQ (url : PyStr) : PyStr × PyStr :=
  let u := url.filter (fun b => !(b = 9 || b = 13 || b = 10))
  let u := stripScheme u
  let u := if u.take 2 = [47, 47] then dropNetloc u else u
  let u := takeBefore 35 u                        -- 35 = hash
  match splitFirst 63 u with                      -- 63 = question mark
  | some (p, q) => (p, q)
  | none => (u, [])

/-- `urllib.parse._splitparams`: remove `;params` from the last path segment. -/
def splitParams (path : PyStr) : PyStr :=
  if (findByte 59 path).isSome then               -- 59 = semicolon
    match rfindByte 47 path with
    | some r =>
      match ((path.drop r).findIdx? (· = 59)).map (· + r) with
      | some i => path.take i
      | none => path
    | none => path.take ((findByte 59 path).getD 0)
  else path

/-- The `.path` component of `urllib.parse.urlparse` (urlsplit + params split). -/
def urlparsePath (url : PyStr) : PyStr := splitParams (urlsplitPQ url).1

/-- The `.query` component of `urllib.parse.urlparse`. -/
def urlparseQuery (url : PyStr) : PyStr := (urlsplitPQ url).2

/-- Python `s.replace("+", " ")` as used by `parse_qsl`. -/
def plusToSpace (s : PyStr) : PyStr := s.map (fun b => if b = 43 then 32 else b)

/-- `urllib.parse.parse_qsl(qs, keep_blank_values=True)`: split on `&`, skip
empty fields, split each field at the first `=` (a field with no `=` keeps an
empty value), then `+`→space and percent-decode names and values. -/
def parse_qsl (qs : PyStr) : List (PyStr × PyStr) :=
  (splitByte 38 qs).filterMap (fun field =>       -- 38 = ampersand
    if field = [] then none
    else
      match splitFirst 61 field with              -- 61 = equals sign
      | some (n, v) => some (unquote (plusToSpace n), unquote (plusToSpace v))
      | none => some (unquote (plusToSpace field), []))

/-- Python dict key-membership test on an association list. -/
def hasKeyB (d : List (PyStr × PyStr)) (k : PyStr) : Bool := d.any (fun e => e.1 = k)

/-- Python `d[k] = v` on an association list: update in place or append. -/
def dictInsert (d : List (PyStr × PyStr)) (k v : PyStr) : List (PyStr × PyStr) :=
  if hasKeyB d k then d.map (fun e => if e.1 = k then (k, v) else e) else d ++ [(k, v)]

/-- `dict(pairs)`: left-to-right insertion, later duplicates overriding. -/
def pyDict (l : List (PyStr × PyStr)) : List (PyStr × PyStr) :=
  l.foldl (fun d e => dictInsert d e.1 e.2) []

/-- `_is_safe_segment` from `serve.py`: nonempty, not `.` or `..`, no backslash
or NUL byte, not starting with `/` or `~`. -/
def is_safe_segment (seg : PyStr) : Bool :=
  if seg = [] then false
  else if seg = pyb "." ∨ seg = pyb ".." then false
  else if seg.contains 92 || seg.contains 0 then false   -- backslash, NUL
  else if seg.headD 0 = 47 || seg.headD 0 = 126 then false   -- slash, tilde
  else true

/-- The sentinel segment list returned by `parse_url` for an unsafe path. -/
def invalidSentinel : List PyStr := [pyb "__INVALID__"]

/-- The decoded path segments `parse_url` derives before validation:
`unquote(parsed.path).strip("/").split("/")` with empty segments dropped. -/
def rawSegmentsOf (url : PyStr) : List PyStr :=
  (splitByte 47 (stripByte 47 (unquote (urlparsePath url)))).filter (· ≠ [])

/-- The query dict `parse_url` builds: `dict(parse_qsl(query, keep_blank_values
=True))`, plus the fallback that inserts `list` when the *raw* URL contains the
substring `?list` and no `list` key was parsed. -/
def queryDictOf (url : PyStr) : List (PyStr × PyStr) :=
  let q := pyDict (parse_qsl (urlparseQuery url))
  if ¬ hasKeyB q (pyb "list") ∧ isSubB (pyb "?list") url then
    dictInsert q (pyb "list") []
  else q

/-- `parse_url` from `serve.py`: returns `(segments, query_dict)`, the segments
being `invalidSentinel` when any decoded segment fails `_is_safe_segment`. -/
def parse_url (url : PyStr) : List PyStr × List (PyStr × PyStr) :=
  let query := queryDictOf url
  if unquote (urlparsePath url) = pyb "/" then ([], query)
  else
    let raw_segments := rawSegmentsOf url
    if raw_segments = [] then ([], query)
    else if raw_segments.all is_safe_segment then (raw_segments, query)
    else (invalidSentinel, query)

/-! ## Filesystem model -/

/-- A filesystem node: regular file with contents, directory, or symlink
holding its target string. -/
inductive Node where
  | file (data : List Nat)
  | dir
  | symlink (target : PyStr)
deriving DecidableEq, Repr

/-- An absolute path, as its list of components (the root is `[]`). -/
abbrev AbsPath := List PyStr

/-- A filesystem: a finite association list from absolute paths to nodes. -/
abbrev FS := List (AbsPath × Node)

/-- Node at a path; the root `[]` is always a directory. -/
def nodeAt (fs : FS) (p : AbsPath) : Option Node :=
  if p = [] then some .dir else List.lookup p fs

/-- Whether the already-resolved path `p` may be descended through. -/
def isDirOrRoot (fs : FS) (p : AbsPath) : Bool :=
  match nodeAt fs p with
  | some .dir => true
  | _ => false

/-- Split a symlink target string into the components the resolver walks
(`os.path.realpath` splits the target on `/`, keeping `.` and `..`). -/
def linkSegs (t : PyStr) : List PyStr := (splitByte 47 t).filter (· ≠ [])

/-- Outcome of walking path components until done, an error, or a symlink. -/
inductive WalkOut where
  | done (q : AbsPath)
  | fail
  | link (acc : AbsPath) (target : PyStr) (rest : List PyStr)
deriving DecidableEq, Repr

/-- One symlink-free stretch of strict path resolution: starting below the
already-resolved prefix `acc`, process components left to right (`.` skipped,
`..` dropping the last resolved component, names looked up strictly), stopping
at the first symlink. -/
def resolveWalk (fs : FS) (acc : AbsPath) : List PyStr → WalkOut
  | [] => .done acc
  | s :: rest =>
    if isDirOrRoot fs acc then
      if s = pyb "." then resolveWalk fs acc rest
      else if s = pyb ".." then resolveWalk fs acc.dropLast rest
      else
        match nodeAt fs (acc ++ [s]) with
        | some (.symlink t) => .link acc t rest
        | some _ => resolveWalk fs (acc ++ [s]) rest
        | none => .fail
    else .fail

/-- Strict resolution with a symlink-traversal fuel: each symlink found is
spliced into the remaining components (restarting from the root for an
absolute target) and costs one unit of fuel; running out models `ELOOP`. -/
def resolveFuel (fs : FS) : Nat → AbsPath → List PyStr → Option AbsPath
  | 0, acc, rest =>
    match resolveWalk fs acc rest with
    | .done q => some q
    | _ => none
  | fuel + 1, acc, rest =>
    match resolveWalk fs acc rest with
    | .done q => some q
    | .fail => none
    | .link acc' t rest' =>
      resolveFuel fs fuel (if t.headD 0 = 47 then [] else acc') (linkSegs t ++ rest')

/-- `Path.resolve(strict=True)` as a total function: `none` is a raised
`OSError` (missing entry, non-directory prefix, or symlink loop). -/
def resolvePath (fs : FS) (fuel : Nat) (p : AbsPath) : Option AbsPath :=
  resolveFuel fs fuel [] p

/-- `Path.exists()` (follows symlinks). -/
def pathExistsB (fs : FS) (fuel : Nat) (p : AbsPath) : Bool :=
  (resolvePath fs fuel p).isSome

/-- `Path.is_dir()` (follows symlinks). -/
def isDirB (fs : FS) (fuel : Nat) (p : AbsPath) : Bool :=
  match resolvePath fs fuel p with
  | some q => isDirOrRoot fs q
  | none => false

/-- `Path.is_file()` (follows symlinks). -/
def isFileB (fs : FS) (fuel : Nat) (p : AbsPath) : Bool :=
  match resolvePath fs fuel p with
  | some q =>
    match nodeAt fs q with
    | some (.file _) => true
    | _ => false
  | none => false

/-- `Path.read_bytes()`: `none` is a raised `OSError`. -/
def readBytes (fs : FS) (fuel : Nat) (p : AbsPath) : Option (List Nat) :=
  match resolvePath fs fuel p with
  | some q =>
    match nodeAt fs q with
    | some (.file data) => some data
    | _ => none
  | none => none

/-! ## pathlib name manipulation -/

/-- `PurePath` component parsing of a path-fragment string: split on `/`,
dropping empty components and `.` (pathlib normalizes those away). -/
def pathComponents (s : PyStr) : List PyStr :=
  (splitByte 47 s).filter (fun c => c ≠ [] ∧ c ≠ pyb ".")

/-- `base / s` in pathlib: an absolute right operand replaces the left one. -/
def pathDiv (base : AbsPath) (s : PyStr) : AbsPath :=
  if s.headD 0 = 47 then pathComponents s else base ++ pathComponents s

/-- `PurePath.suffix` of a final component: from the last dot, when that dot is
neither the first nor the last character of the name. -/
def pySuffix (name : PyStr) : PyStr :=
  match rfindByte 46 name with                    -- 46 = dot
  | some i => if 0 < i ∧ i < name.length - 1 then name.drop i else []
  | none => []

/-- `PurePath.with_suffix("")` applied to a final component: drop the suffix. -/
def withSuffixEmpty (name : PyStr) : PyStr :=
  name.take (name.length - (pySuffix name).length)

/-- Python `name.removesuffix(".html")`. -/
def removeSuffixHtml (name : PyStr) : PyStr :=
  if (pyb ".html").isSuffixOf name then name.take (name.length - 5) else name

/-- The string `str(p)` of an absolute path, used by `sorted()` on `Path`s. -/
def pathStr (p : AbsPath) : PyStr := 47 :: List.intercalate [47] p

/-! ## Directory scanning (`Path.rglob("*.html")`) -/

/-- Immediate children of an absolute directory path, in filesystem order. -/
def childEntries (fs : FS) (d : AbsPath) : List (PyStr × Node) :=
  fs.filterMap (fun e =>
    if e.1.dropLast = d then (e.1.getLast?).map (fun nm => (nm, e.2)) else none)

/-- The `**` walk of `rglob("*.html")` from a fully resolved directory: match
entries named `*.html` at each level and recurse into plain subdirectories
(symlinked directories are not followed by the recursive wildcard).  Returns
paths relative to the walk root; `depth` bounds the recursion. -/
def walkHtml (fs : FS) : Nat → AbsPath → List (List PyStr)
  | 0, _ => []
  | depth + 1, d =>
    let entries := childEntries fs d
    entries.filterMap (fun e =>
        if (pyb ".html").isSuffixOf e.1 then some [e.1] else none)
      ++ entries.flatMap (fun e =>
        match e.2 with
        | .dir => (walkHtml fs depth (d ++ [e.1])).map (e.1 :: ·)
        | _ => [])

/-- `root.rglob("*.html")`: scanning opens `root` (following symlinks in the
prefix), then walks; results are anchored at the root as given. -/
def rglobHtml (fs : FS) (fuel : Nat) (root : AbsPath) : List AbsPath :=
  match resolvePath fs fuel root with
  | some rc => (walkHtml fs fuel rc).map (root ++ ·)
  | none => []

/-! ## `serve.py` file resolution -/

/-- `list_html_files` from `serve.py`: scan `base_dir` (or `base_dir/only_dir`)
for `*.html` regular files whose resolved path stays inside the resolved base. -/
def list_html_files (fs : FS) (fuel : Nat) (base : AbsPath) (only_dir : Option PyStr) :
    List AbsPath :=
  let root := match only_dir with
    | none => base
    | some d => pathDiv base d
  if pathExistsB fs fuel root && isDirB fs fuel root then
    (rglobHtml fs fuel root).filterMap (fun p =>
      if isFileB fs fuel p then
        match resolvePath fs fuel p, resolvePath fs fuel base with
        | some rp, some rb => if rb.isPrefixOf rp then some rp else none
        | _, _ => none
      else none)
  else []

/-- `try_serve_exact` from `serve.py`: join the segments, append `.html` unless
already present, resolve against the base, and accept only a regular `.html`
file that stays inside the resolved base. -/
def try_serve_exact (fs : FS) (fuel : Nat) (base : AbsPath) (segments : List PyStr) :
    Option AbsPath :=
  if segments.length < 2 then none
  else
    let rel := List.intercalate (pyb "/") segments
    let rel := if (pyb ".html").isSuffixOf rel then rel else rel ++ pyb ".html"
    let candidate := pathDiv base rel
    match resolvePath fs fuel candidate, resolvePath fs fuel base with
    | some resolved, some resolved_base =>
      if resolved_base.isPrefixOf resolved then
        if isFileB fs fuel resolved && pySuffix (resolved.getLastD []) = pyb ".html" then
          some resolved
        else none
      else none
    | _, _ => none

/-! ## HTTP responses -/

/-- An HTTP response: status, application-level headers in send order, body. -/
structure Response where
  status : Nat
  headers : List (PyStr × PyStr)
  body : List Nat
deriving DecidableEq, Repr

/-- Decimal rendering of a number, as Python's `str(n)` / `%d`. -/
def decStr (n : Nat) : PyStr := pyb (toString n)

/-- `BaseHTTPRequestHandler.responses[code]` (short message, long explanation)
for the codes `serve.py` uses. -/
def httpCodeMsgs (code : Nat) : PyStr × PyStr :=
  if code = 400 then (pyb "Bad Request", pyb "Bad request syntax or unsupported method")
  else if code = 404 then (pyb "Not Found", pyb "Nothing matches the given URI")
  else if code = 500 then (pyb "Internal Server Error", pyb "Server got itself in trouble")
  else ([], [])

/-- The body of `BaseHTTPRequestHandler.send_error`: `DEFAULT_ERROR_MESSAGE`
with the code, escaped message and escaped explanation substituted. -/
def errorBody (code : Nat) (message : PyStr) : PyStr :=
  pyb "<!DOCTYPE HTML>\n<html lang=\"en\">\n    <head>\n        <meta charset=\"utf-8\">\n        <title>Error response</title>\n    </head>\n    <body>\n        <h1>Error response</h1>\n        <p>Error code: "
    ++ decStr code
    ++ pyb "</p>\n        <p>Message: "
    ++ escapeNQ message
    ++ pyb ".</p>\n        <p>Error code explanation: "
    ++ decStr code ++ pyb " - " ++ escapeNQ (httpCodeMsgs code).2
    ++ pyb ".</p>\n    </body>\n</html>\n"

/-- `BaseHTTPRequestHandler.send_error(code, message)`: its status line, the
headers it sends (`Connection: close`, then `Content-Type` with the library's
`error_content_type` — note: no space before `charset` — then an accurate
`Content-Length`), and the templated HTML body. -/
def send_error (code : Nat) (message : PyStr) : Response :=
  let body := errorBody code message
  { status := code
    headers := [(pyb "Connection", pyb "close"),
                (pyb "Content-Type", pyb "text/html;charset=utf-8"),
                (pyb "Content-Length", decStr body.length)]
    body := body }

/-- The `Content-Type` value `serve.py` itself always sends. -/
def ctValue : PyStr := pyb "text/html; charset=utf-8"

/-- `RandomHTMLHandler._serve_file`: read the bytes (an `OSError` becomes a 500
via `send_error`), else 200 with `Content-Type` and exact `Content-Length`. -/
def serve_file (fs : FS) (fuel : Nat) (path : AbsPath) : Response :=
  match readBytes fs fuel path with
  | none => send_error 500 (pyb "Failed to read file")
  | some data =>
    { status := 200
      headers := [(pyb "Content-Type", ctValue),
                  (pyb "Content-Length", decStr data.length)]
      body := data }

/-- Body of the random-mode 404 page, naming a truthy (nonempty) filter. -/
def notFoundBody (only_dir : Option PyStr) : PyStr :=
  let msg := pyb "No HTML files found" ++
    (match only_dir with
     | some d => if d = [] then [] else pyb " in directory " ++ escapeQ d
     | none => [])
  pyb "<h1>" ++ msg ++ pyb "</h1>"

/-! ## Listing page -/

/-- Lexicographic byte-order comparison, Python's `<=` on strings (for ASCII
and, thanks to UTF-8's order-preservation, for all code points). -/
def strLe : PyStr → PyStr → Bool
  | [], _ => true
  | _ :: _, [] => false
  | a :: xs, b :: ys => if a < b then true else if b < a then false else strLe xs ys

/-- `strLe` as a relation, for `List.insertionSort`. -/
def StrLeP (a b : PyStr) : Prop := strLe a b = true

instance : DecidableRel StrLeP := fun a b => inferInstanceAs (Decidable (strLe a b = true))

/-- Ordering of `Path` objects under `sorted()`: by their full path string. -/
def PathLeP (a b : AbsPath) : Prop := StrLeP (pathStr a) (pathStr b)

instance : DecidableRel PathLeP := fun a b =>
  inferInstanceAs (Decidable (strLe (pathStr a) (pathStr b) = true))

/-- Ordering of `(name, display)` entries by display name (`key=lambda x: x[1]`). -/
def EntLeP (a b : PyStr × PyStr) : Prop := StrLeP a.2 b.2

instance : DecidableRel EntLeP := fun a b =>
  inferInstanceAs (Decidable (strLe a.2 b.2 = true))

/-- Ordering of listing groups by directory name (`sorted(groups)` on keys). -/
def KeyLeP (a b : PyStr × List (PyStr × PyStr)) : Prop := StrLeP a.1 b.1

instance : DecidableRel KeyLeP := fun a b =>
  inferInstanceAs (Decidable (strLe a.1 b.1 = true))

/-- The href path of a listing entry: `rel.with_suffix("").as_posix()` —
the relative path with the pathlib suffix stripped from its last component,
joined with `/`. -/
def hrefName (rel : List PyStr) : PyStr :=
  List.intercalate [47] (rel.dropLast ++ [withSuffixEmpty (rel.getLastD [])])

/-- The display label of a listing entry: the final component with an `.html`
suffix removed (`parts[-1].removesuffix(".html")`). -/
def displayName (rel : List PyStr) : PyStr := removeSuffixHtml (rel.getLastD [])

/-- `groups.setdefault(directory, []).append(entry)` on an insertion-ordered
association list. -/
def groupAppend (gs : List (PyStr × List (PyStr × PyStr))) (d : PyStr)
    (e : PyStr × PyStr) : List (PyStr × List (PyStr × PyStr)) :=
  if gs.any (fun g => g.1 = d) then
    gs.map (fun g => if g.1 = d then (g.1, g.2 ++ [e]) else g)
  else gs ++ [(d, [e])]

/-- The grouping loop of `_serve_listing`, over `sorted(files)` against the
resolved base `rb`: keep files at depth ≥ 2 below `rb`, keyed by top-level
directory, with `(href name, display name)` entries. -/
def listingGroups (rb : AbsPath) (files : List AbsPath) :
    List (PyStr × List (PyStr × PyStr)) :=
  (files.insertionSort PathLeP).foldl (fun gs f =>
    if rb.isPrefixOf f then
      match f.drop rb.length with
      | d :: _ :: _ =>
        groupAppend gs d (hrefName (f.drop rb.length), displayName (f.drop rb.length))
      | _ => gs
    else gs) []

/-- The page title: `f"Visualizations — {html.escape(only_dir)}"` for a truthy
filter, else `"Visualizations"`. -/
def listingTitle (only_dir : Option PyStr) : PyStr :=
  match only_dir with
  | some d => if d = [] then pyb "Visualizations" else pyb "Visualizations — " ++ escapeQ d
  | none => pyb "Visualizations"

/-- The fixed lines of the listing page before the groups. -/
def listingHeader (title : PyStr) : List PyStr :=
  [pyb "<!doctype html>",
   pyb "<html lang=\"en\"><head><meta charset=\"utf-8\"/>",
   pyb "<title>" ++ title ++ pyb "</title>",
   pyb "<style>",
   pyb "  body \x7b font-family: system-ui, sans-serif; background: #0a0a12; color: #e0e0e8;",
   pyb "         max-width: 720px; margin: 40px auto; padding: 0 20px; \x7d",
   pyb "  h1 \x7b font-size: 22px; font-weight: 700; margin-bottom: 8px; \x7d",
   pyb "  h2 \x7b font-size: 16px; font-weight: 600; color: #8090b0; margin: 28px 0 8px; \x7d",
   pyb "  ul \x7b list-style: none; padding: 0; \x7d",
   pyb "  li \x7b margin: 4px 0; \x7d",
   pyb "  a \x7b color: #7ab8ff; text-decoration: none; padding: 6px 10px; display: inline-block;",
   pyb "      border-radius: 8px; transition: background .15s; \x7d",
   pyb "  a:hover \x7b background: rgba(122,184,255,.12); \x7d",
   pyb "  .hint \x7b font-size: 13px; color: #667; margin-top: 4px; \x7d",
   pyb "</style>",
   pyb "</head><body>",
   pyb "<h1>" ++ title ++ pyb "</h1>",
   pyb "<p class=\"hint\">Click a name to view it directly, or visit a directory path for a random pick.</p>"]

/-- One `<li>` line of the listing: a link to `/name` labelled `display`,
both HTML-escaped. -/
def liLine (name display : PyStr) : PyStr :=
  pyb "  <li><a href=\"/" ++ escapeQ name ++ pyb "\">" ++ escapeQ display ++ pyb "</a></li>"

/-- The lines one group contributes: heading, sorted entries, closing tag. -/
def groupLines (d : PyStr) (es : List (PyStr × PyStr)) : List PyStr :=
  (pyb "<h2>" ++ escapeQ d ++ pyb "/</h2><ul>")
    :: (es.insertionSort EntLeP).map (fun e => liLine e.1 e.2)
    ++ [pyb "</ul>"]

/-- All lines of the listing page (groups iterated in sorted key order; keys
are unique, so sorting the association pairs by key is `for directory in
sorted(groups)`). -/
def listingLines (only_dir : Option PyStr) (gs : List (PyStr × List (PyStr × PyStr))) :
    List PyStr :=
  listingHeader (listingTitle only_dir)
    ++ (gs.insertionSort KeyLeP).flatMap (fun g => groupLines g.1 g.2)
    ++ [pyb "</body></html>"]

/-- `RandomHTMLHandler._serve_listing`.  `base_dir.resolve(strict=True)` is not
guarded by a `try` here; a raised `OSError` (`none`) escapes the handler and no
response is produced. -/
def serve_listing (fs : FS) (fuel : Nat) (base : AbsPath) (only_dir : Option PyStr) :
    Option Response :=
  let files := list_html_files fs fuel base only_dir
  match resolvePath fs fuel base with
  | none => none
  | some rb =>
    let data := List.intercalate (pyb "\n") (listingLines only_dir (listingGroups rb files))
    some { status := 200
           headers := [(pyb "Content-Type", ctValue),
                       (pyb "Content-Length", decStr data.length)]
           body := data }

/-! ## Request handling -/

/-- `RandomHTMLHandler.do_GET`.  `rnd` supplies the randomness of
`random.choice` (choice of index `rnd % len(candidates)`); `none` means an
unhandled exception (no response). -/
def do_GET (fs : FS) (fuel : Nat) (base : AbsPath) (rawUrl : PyStr) (rnd : Nat) :
    Option Response :=
  let segments := (parse_url rawUrl).1
  let query := (parse_url rawUrl).2
  if segments = invalidSentinel then
    some (send_error 400 (pyb "Invalid path"))
  else if hasKeyB query (pyb "list") then
    serve_listing fs fuel base (match segments with | [s] => some s | _ => none)
  else if 2 ≤ segments.length then
    match try_serve_exact fs fuel base segments with
    | some exact => some (serve_file fs fuel exact)
    | none => some (send_error 404 (pyb "File not found"))
  else
    let only_dir := match segments with | [s] => some s | _ => none
    let candidates := list_html_files fs fuel base only_dir
    if candidates = [] then
      some { status := 404
             headers := [(pyb "Content-Type", ctValue)]
             body := notFoundBody only_dir }
    else
      some (serve_file fs fuel (candidates.getD (rnd % candidates.length) []))

/-! ## Supporting lemmas -/

theorem hasKeyB_append (d₁ d₂ : List (PyStr × PyStr)) (k : PyStr) :
    hasKeyB (d₁ ++ d₂) k = (hasKeyB d₁ k || hasKeyB d₂ k) := by
  simp [hasKeyB, List.any_append]

theorem hasKeyB_dictInsert (d : List (PyStr × PyStr)) (k v : PyStr) :
    hasKeyB (dictInsert d k v) k = true := by
  unfold dictInsert
  split
  · next h =>
    unfold hasKeyB at h ⊢
    simp only [List.any_eq_true, decide_eq_true_eq] at h ⊢
    obtain ⟨e, he, hk⟩ := h
    exact ⟨(k, v), List.mem_map.2 ⟨e, he, by simp [hk]⟩, by simp⟩
  · simp [hasKeyB_append, hasKeyB]

theorem parse_url_snd (url : PyStr) : (parse_url url).2 = queryDictOf url := by
  simp only [parse_url]
  split
  · rfl
  · split
    · rfl
    · split <;> rfl

/-- The unsafe-segment condition exactly as the specification words it:
a segment equal to `.` or `..`, containing a backslash or NUL byte, or
starting with `/` or `~`. -/
def claimUnsafeSeg (s : PyStr) : Prop :=
  s = pyb "." ∨ s = pyb ".." ∨ 92 ∈ s ∨ 0 ∈ s ∨ s.head? = some 47 ∨ s.head? = some 126

instance : DecidablePred claimUnsafeSeg := fun s => by
  unfold claimUnsafeSeg; infer_instance

theorem is_safe_segment_eq_false_of_claimUnsafe (s : PyStr) (h : claimUnsafeSeg s) :
    is_safe_segment s = false := by
  unfold is_safe_segment
  split_ifs with h1 h2 h3 h4 <;> try rfl
  exfalso
  rcases h with h | h | h | h | h | h
  · exact h2 (Or.inl h)
  · exact h2 (Or.inr h)
  · exact h3 (Bool.or_eq_true _ _ |>.mpr (Or.inl (List.elem_eq_true_of_mem h)))
  · exact h3 (Bool.or_eq_true _ _ |>.mpr (Or.inr (List.elem_eq_true_of_mem h)))
  · rcases s with _ | ⟨b, t⟩
    · exact h1 rfl
    · simp only [List.head?_cons, Option.some.injEq] at h
      simp [List.headD, h] at h4
  · rcases s with _ | ⟨b, t⟩
    · exact h1 rfl
    · simp only [List.head?_cons, Option.some.injEq] at h
      simp [List.headD, h] at h4

/-- C5 counterexample: for the URL `/foo?listing=5` the query string
`listing=5` parses to no `list` key at all, yet `parse_url` puts `list` into
the query dict, because the fallback checks for the substring `?list` in the
raw URL. -/
theorem c5_counterexample :
    (∀ e ∈ parse_qsl (urlparseQuery (pyb "/foo?listing=5")), e.1 ≠ pyb "list") ∧
    hasKeyB (parse_url (pyb "/foo?listing=5")).2 (pyb "list") = true := by
  constructor
  · decide
  · decide

/-- C5 amended: `list` is present in the parsed query dict exactly when the
query string parses (via `parse_qsl`) to a `list` key, or the raw URL contains
the substring `?list` anywhere. -/
theorem c5_amended (url : PyStr) :
    hasKeyB (parse_url url).2 (pyb "list") =
      (hasKeyB (pyDict (parse_qsl (urlparseQuery url))) (pyb "list")
        || isSubB (pyb "?list") url) := by
  rw [parse_url_snd]
  simp only [queryDictOf]
  split
  · next h =>
    rw [hasKeyB_dictInsert]
    rw [Bool.not_eq_true] at h
    rw [h.1, h.2]
    rfl
  · next h =>
    rcases Bool.eq_false_or_eq_true
        (hasKeyB (pyDict (parse_qsl (urlparseQuery url))) (pyb "list")) with hk | hk
    · rw [hk]; rfl
    · have hsub : isSubB (pyb "?list") url = false := by
        by_contra hs
        exact h ⟨by rw [hk]; exact Bool.false_ne_true, (Bool.not_eq_false _).mp hs⟩
      rw [hk, hsub]; rfl

/-- C9: exact-file mode is deterministic — on a fixed filesystem and base
directory, requests to the same 2+-segment non-listing path yield identical
responses whatever the random draws are. -/
theorem c9_exact_mode_deterministic (fs : FS) (fuel : Nat) (base : AbsPath)
    (url : PyStr) (r1 r2 : Nat)
    (hlen : 2 ≤ (parse_url url).1.length)
    (hnl : hasKeyB (parse_url url).2 (pyb "list") = false) :
    do_GET fs fuel base url r1 = do_GET fs fuel base url r2 := by
  have hinv : ¬ (parse_url url).1 = invalidSentinel := by
    intro h
    rw [h] at hlen
    simp [invalidSentinel] at hlen
  have hnl' : ¬ hasKeyB (parse_url url).2 (pyb "list") = true := by
    rw [hnl]; exact Bool.false_ne_true
  simp only [do_GET, if_neg hinv, if_neg hnl', if_pos hlen]

/-- Concrete instance of `c9_exact_mode_deterministic` at the URL `/a/b`. -/
theorem c9_witness :
    2 ≤ (parse_url (pyb "/a/b")).1.length ∧
    hasKeyB (parse_url (pyb "/a/b")).2 (pyb "list") = false ∧
    do_GET [] 1 [] (pyb "/a/b") 0 = do_GET [] 1 [] (pyb "/a/b") 7 :=
  ⟨by decide, by decide,
   c9_exact_mode_deterministic [] 1 [] (pyb "/a/b") 0 7 (by decide) (by decide)⟩

/-- C10: the string `__INVALID__` itself passes every segment-safety check, so
the legitimate single-segment URL `/__INVALID__` parses to exactly the invalid
sentinel, and the server answers 400 instead of random mode filtered to a
directory named `__INVALID__` — for every filesystem, base and random draw. -/
theorem c10_sentinel_collision :
    is_safe_segment (pyb "__INVALID__") = true ∧
    parse_url (pyb "/__INVALID__") = (invalidSentinel, []) ∧
    ∀ (fs : FS) (fuel : Nat) (base : AbsPath) (rnd : Nat),
      do_GET fs fuel base (pyb "/__INVALID__") rnd =
        some (send_error 400 (pyb "Invalid path")) := by
  refine ⟨by decide, by decide, fun fs fuel base rnd => ?_⟩
  simp only [do_GET]
  rw [if_pos (show (parse_url (pyb "/__INVALID__")).1 = invalidSentinel from by decide)]

/-- C3: mode precedence for every valid (non-sentinel) request — `list` in the
query always selects listing mode (single segment as filter, none otherwise);
otherwise 2+ segments select exact-file mode; otherwise random mode, with a
single segment as subdirectory filter. -/
theorem c3_mode_precedence (fs : FS) (fuel : Nat) (base : AbsPath) (url : PyStr)
    (rnd : Nat) (hinv : (parse_url url).1 ≠ invalidSentinel) :
    (hasKeyB (parse_url url).2 (pyb "list") = true →
      do_GET fs fuel base url rnd =
        serve_listing fs fuel base
          (match (parse_url url).1 with | [s] => some s | _ => none)) ∧
    (hasKeyB (parse_url url).2 (pyb "list") = false → 2 ≤ (parse_url url).1.length →
      do_GET fs fuel base url rnd =
        (match try_serve_exact fs fuel base (parse_url url).1 with
         | some exact => some (serve_file fs fuel exact)
         | none => some (send_error 404 (pyb "File not found")))) ∧
    (hasKeyB (parse_url url).2 (pyb "list") = false → (parse_url url).1.length < 2 →
      do_GET fs fuel base url rnd =
        (let only_dir := match (parse_url url).1 with | [s] => some s | _ => none
         let candidates := list_html_files fs fuel base only_dir
         if candidates = [] then
           some { status := 404
                  headers := [(pyb "Content-Type", ctValue)]
                  body := notFoundBody only_dir }
         else
           some (serve_file fs fuel (candidates.getD (rnd % candidates.length) [])))) := by
  refine ⟨fun hl => ?_, fun hl hlen => ?_, fun hl hlen => ?_⟩
  · simp only [do_GET, if_neg hinv, if_pos hl]
  · have hl' : ¬ hasKeyB (parse_url url).2 (pyb "list") = true := by
      rw [hl]; exact Bool.false_ne_true
    simp only [do_GET, if_neg hinv, if_neg hl', if_pos hlen]
  · have hl' : ¬ hasKeyB (parse_url url).2 (pyb "list") = true := by
      rw [hl]; exact Bool.false_ne_true
    have hlen' : ¬ 2 ≤ (parse_url url).1.length := by omega
    simp only [do_GET, if_neg hinv, if_neg hl', if_neg hlen']

/-- Concrete instance of `c3_mode_precedence`: `/d?list` with 1 segment is
listing mode filtered to `d`, even though `/d` alone would be random mode. -/
theorem c3_witness :
    (parse_url (pyb "/d?list")).1 ≠ invalidSentinel ∧
    do_GET [] 1 [] (pyb "/d?list") 0 = serve_listing [] 1 [] (some (pyb "d")) :=
  ⟨by decide,
   by
    have h := (c3_mode_precedence [] 1 [] (pyb "/d?list") 0 (by decide)).1 (by decide)
    rw [h]
    rfl⟩

/-- The header discipline the code actually sustains: a `Content-Type` header
is always present (the server's own `text/html; charset=utf-8` or the
library's `text/html;charset=utf-8`); any `Content-Length` sent is exactly the
body's byte length; and the only response without a `Content-Length` is the
random-mode 404 page. -/
def HeadersOk (r : Response) : Prop :=
  (List.lookup (pyb "Content-Type") r.headers = some ctValue ∨
   List.lookup (pyb "Content-Type") r.headers = some (pyb "text/html;charset=utf-8")) ∧
  (∀ v, List.lookup (pyb "Content-Length") r.headers = some v → v = decStr r.body.length) ∧
  (List.lookup (pyb "Content-Length") r.headers = none →
    r.status = 404 ∧ r.headers = [(pyb "Content-Type", ctValue)])

theorem headersOk_send_error (c : Nat) (m : PyStr) : HeadersOk (send_error c m) := by
  unfold HeadersOk send_error
  simp only [List.lookup,
    show (pyb "Content-Type" == pyb "Connection") = false from by decide,
    show (pyb "Content-Type" == pyb "Content-Type") = true from by decide,
    show (pyb "Content-Length" == pyb "Connection") = false from by decide,
    show (pyb "Content-Length" == pyb "Content-Type") = false from by decide,
    show (pyb "Content-Length" == pyb "Content-Length") = true from by decide]
  exact ⟨Or.inr trivial, fun v hv => (Option.some.inj hv).symm, fun hn => by cases hn⟩

theorem headersOk_ok200 (data : List Nat) :
    HeadersOk { status := 200
                headers := [(pyb "Content-Type", ctValue),
                            (pyb "Content-Length", decStr data.length)]
                body := data } := by
  unfold HeadersOk
  simp only [List.lookup,
    show (pyb "Content-Type" == pyb "Content-Type") = true from by decide,
    show (pyb "Content-Length" == pyb "Content-Type") = false from by decide,
    show (pyb "Content-Length" == pyb "Content-Length") = true from by decide]
  exact ⟨Or.inl trivial, fun v hv => (Option.some.inj hv).symm, fun hn => by cases hn⟩

theorem headersOk_serve_file (fs : FS) (fuel : Nat) (p : AbsPath) :
    HeadersOk (serve_file fs fuel p) := by
  unfold serve_file
  split
  · exact headersOk_send_error 500 (pyb "Failed to read file")
  · exact headersOk_ok200 _

/-- C6 counterexample: with base `/srv` an empty existing directory, `GET /`
takes the random-mode empty branch and the 404 response carries a
`Content-Type` header but **no** `Content-Length` header at all. -/
theorem c6_counterexample :
    ∃ r, do_GET [([pyb "srv"], .dir)] 2 [pyb "srv"] (pyb "/") 0 = some r ∧
      r.status = 404 ∧ List.lookup (pyb "Content-Length") r.headers = none := by
  refine ⟨{ status := 404, headers := [(pyb "Content-Type", ctValue)],
            body := notFoundBody none }, by decide, rfl, by decide⟩

/-- C6 amended: every produced response carries a `Content-Type` header (the
server's `text/html; charset=utf-8`, or `text/html;charset=utf-8` on
`send_error` pages); every `Content-Length` header sent equals the body's
exact byte length; and the sole response lacking `Content-Length` is the
random-mode 404 page. -/
theorem c6_amended (fs : FS) (fuel : Nat) (base : AbsPath) (url : PyStr)
    (rnd : Nat) (r : Response) (h : do_GET fs fuel base url rnd = some r) :
    HeadersOk r := by
  simp only [do_GET] at h
  split at h
  · exact (Option.some.inj h) ▸ headersOk_send_error 400 (pyb "Invalid path")
  · split at h
    · -- listing mode
      simp only [serve_listing] at h
      split at h
      · exact absurd h (by simp)
      · exact (Option.some.inj h) ▸ headersOk_ok200 _
    · split at h
      · -- exact-file mode
        split at h
        · exact (Option.some.inj h) ▸ headersOk_serve_file fs fuel _
        · exact (Option.some.inj h) ▸ headersOk_send_error 404 (pyb "File not found")
      · -- random mode
        split at h
        · refine (Option.some.inj h) ▸ ⟨Or.inl rfl, fun v hv => ?_, fun hn => ⟨rfl, rfl⟩⟩
          exact absurd hv (by
            rw [show List.lookup (pyb "Content-Length")
                  [(pyb "Content-Type", ctValue)] = none from by decide]
            exact Option.noConfusion)
        · exact (Option.some.inj h) ▸ headersOk_serve_file fs fuel _

/-- Concrete instance of `c6_amended` at the random-mode 404 response. -/
theorem c6_amended_witness :
    HeadersOk { status := 404, headers := [(pyb "Content-Type", ctValue)],
                body := notFoundBody none } :=
  c6_amended [([pyb "srv"], .dir)] 2 [pyb "srv"] (pyb "/") 0 _ (by decide)

/-! ## Resolver invariants -/

/-- A component a fully resolved path may contain. -/
def PlainComp (s : PyStr) : Prop := s ≠ pyb "." ∧ s ≠ pyb ".."

/-- Invariant of resolved paths: plain components, every proper nonempty
prefix a directory, and the path itself the root, a directory or a file. -/
def ResolvedInv (fs : FS) (q : AbsPath) : Prop :=
  (∀ s ∈ q, PlainComp s) ∧
  (∀ p, p <+: q → p ≠ [] → p ≠ q → nodeAt fs p = some .dir) ∧
  (q = [] ∨ nodeAt fs q = some .dir ∨ ∃ data, nodeAt fs q = some (.file data))

theorem resolvedInv_nil (fs : FS) : ResolvedInv fs [] :=
  ⟨fun s hs => absurd hs (List.not_mem_nil s),
   fun p hp hne _ => absurd (List.prefix_nil.mp hp) hne,
   Or.inl rfl⟩

theorem isDirOrRoot_eq_true_iff (fs : FS) (p : AbsPath) :
    isDirOrRoot fs p = true ↔ nodeAt fs p = some .dir := by
  unfold isDirOrRoot
  split
  · next h => simp [h]
  · next h =>
    constructor
    · intro hc; exact absurd hc Bool.false_ne_true
    · intro hc; exact absurd hc h

theorem resolvedInv_dropLast (fs : FS) (q : AbsPath) (h : ResolvedInv fs q) :
    ResolvedInv fs q.dropLast := by
  rcases h with ⟨hplain, hpre, _⟩
  rcases Decidable.em (q.dropLast = []) with hd | hd
  · rw [hd]; exact resolvedInv_nil fs
  refine ⟨fun s hs => hplain s (List.dropLast_sublist q |>.mem hs), fun p hp hne hne2 => ?_, ?_⟩
  · refine hpre p (hp.trans (List.dropLast_prefix q)) hne (fun hq => ?_)
    have h1 : p.length ≤ q.dropLast.length := hp.length_le
    have h2 : q.dropLast.length < q.length := by
      rcases List.eq_nil_or_concat q with rfl | ⟨l, x, rfl⟩
      · simp at hd
      · simp
    rw [hq] at h1; omega
  · refine Or.inr (Or.inl ?_)
    refine hpre q.dropLast (List.dropLast_prefix q) hd (fun hq => ?_)
    have h2 : q.dropLast.length < q.length := by
      rcases List.eq_nil_or_concat q with rfl | ⟨l, x, rfl⟩
      · simp at hd
      · simp
    rw [hq] at h2; omega

theorem resolvedInv_snoc (fs : FS) (acc : AbsPath) (s : PyStr)
    (hacc : ResolvedInv fs acc) (hdir : isDirOrRoot fs acc = true)
    (hs1 : s ≠ pyb ".") (hs2 : s ≠ pyb "..")
    (hnode : nodeAt fs (acc ++ [s]) = some .dir ∨
      ∃ data, nodeAt fs (acc ++ [s]) = some (.file data)) :
    ResolvedInv fs (acc ++ [s]) := by
  rcases hacc with ⟨hplain, hpre, _⟩
  refine ⟨fun c hc => ?_, fun p hp hne hne2 => ?_, Or.inr hnode⟩
  · rcases List.mem_append.mp hc with hc | hc
    · exact hplain c hc
    · rw [List.mem_singleton.mp hc]; exact ⟨hs1, hs2⟩
  · rcases (List.prefix_concat_iff.mp hp) with hq | hq
    · exact absurd hq hne2
    · rcases Decidable.em (p = acc) with rfl | hpacc
      · exact (isDirOrRoot_eq_true_iff fs p).mp hdir
      · exact hpre p hq hne hpacc

theorem resolveWalk_done_inv (fs : FS) (rest : List PyStr) (acc q : AbsPath)
    (h : resolveWalk fs acc rest = .done q) (hacc : ResolvedInv fs acc) :
    ResolvedInv fs q := by
  induction rest generalizing acc with
  | nil =>
    simp only [resolveWalk] at h
    exact (WalkOut.done.inj h) ▸ hacc
  | cons s rest ih =>
    simp only [resolveWalk] at h
    split at h
    · next hdir =>
      split at h
      · exact ih acc h hacc
      · split at h
        · exact ih acc.dropLast h (resolvedInv_dropLast fs acc hacc)
        · next hs1 hs2 =>
          rcases hnode : nodeAt fs (acc ++ [s]) with _ | node
          · rw [hnode] at h; cases h
          · rcases node with data | _ | t
            · rw [hnode] at h
              exact ih (acc ++ [s]) h
                (resolvedInv_snoc fs acc s hacc hdir hs1 hs2 (Or.inr ⟨data, hnode⟩))
            · rw [hnode] at h
              exact ih (acc ++ [s]) h
                (resolvedInv_snoc fs acc s hacc hdir hs1 hs2 (Or.inl hnode))
            · rw [hnode] at h; cases h
    · cases h

theorem resolveWalk_link_inv (fs : FS) (rest : List PyStr) (acc acc2 : AbsPath)
    (t : PyStr) (rest2 : List PyStr)
    (h : resolveWalk fs acc rest = .link acc2 t rest2) (hacc : ResolvedInv fs acc) :
    ResolvedInv fs acc2 := by
  induction rest generalizing acc with
  | nil => simp only [resolveWalk] at h; cases h
  | cons s rest ih =>
    simp only [resolveWalk] at h
    split at h
    · next hdir =>
      split at h
      · exact ih acc h hacc
      · split at h
        · exact ih acc.dropLast h (resolvedInv_dropLast fs acc hacc)
        · next hs1 hs2 =>
          rcases hnode : nodeAt fs (acc ++ [s]) with _ | node
          · rw [hnode] at h; cases h
          · rcases node with data | _ | t2
            · rw [hnode] at h
              exact ih (acc ++ [s]) h
                (resolvedInv_snoc fs acc s hacc hdir hs1 hs2 (Or.inr ⟨data, hnode⟩))
            · rw [hnode] at h
              exact ih (acc ++ [s]) h
                (resolvedInv_snoc fs acc s hacc hdir hs1 hs2 (Or.inl hnode))
            · rw [hnode] at h
              exact (WalkOut.link.inj h).1 ▸ hacc
    · cases h

theorem resolveFuel_inv (fs : FS) (fuel : Nat) (acc : AbsPath) (rest : List PyStr)
    (q : AbsPath) (h : resolveFuel fs fuel acc rest = some q) (hacc : ResolvedInv fs acc) :
    ResolvedInv fs q := by
  induction fuel generalizing acc rest with
  | zero =>
    simp only [resolveFuel] at h
    split at h
    · exact resolveWalk_done_inv fs rest acc q (by
        next hw => rw [hw, Option.some.inj h]) hacc
    · cases h
  | succ fuel ih =>
    simp only [resolveFuel] at h
    split at h
    · next q2 hw =>
      exact resolveWalk_done_inv fs rest acc q (by rw [hw, Option.some.inj h]) hacc
    · cases h
    · next acc2 t rest2 hw =>
      refine ih _ _ h ?_
      split
      · exact resolvedInv_nil fs
      · exact resolveWalk_link_inv fs rest acc acc2 t rest2 hw hacc

theorem resolvePath_inv (fs : FS) (fuel : Nat) (p q : AbsPath)
    (h : resolvePath fs fuel p = some q) : ResolvedInv fs q :=
  resolveFuel_inv fs fuel [] p q h (resolvedInv_nil fs)

theorem resolveWalk_chain (fs : FS) (rest : List PyStr) :
    ∀ (acc : AbsPath),
    (rest ≠ [] → isDirOrRoot fs acc = true) →
    (∀ p, p <+: rest → p ≠ [] → p ≠ rest → nodeAt fs (acc ++ p) = some .dir) →
    (rest ≠ [] → nodeAt fs (acc ++ rest) = some .dir ∨
      ∃ data, nodeAt fs (acc ++ rest) = some (.file data)) →
    (∀ s ∈ rest, PlainComp s) →
    resolveWalk fs acc rest = .done (acc ++ rest) := by
  induction rest with
  | nil => intro acc _ _ _ _; simp [resolveWalk]
  | cons s rest ih =>
    intro acc h1 h2 h3 hplain
    have hs := hplain s (List.mem_cons_self s rest)
    simp only [resolveWalk, if_pos (h1 (List.cons_ne_nil s rest)),
      if_neg hs.1, if_neg hs.2]
    have hnode : nodeAt fs (acc ++ [s]) = some .dir ∨
        ∃ data, nodeAt fs (acc ++ [s]) = some (.file data) := by
      rcases Decidable.em (rest = []) with rfl | hr
      · exact h3 (List.cons_ne_nil s [])
      · refine Or.inl (h2 [s] ?_ (List.cons_ne_nil s []) ?_)
        · exact ⟨rest, rfl⟩
        · intro hcon
          have := congrArg List.length hcon
          simp at this
          exact hr this
    have hcont : resolveWalk fs (acc ++ [s]) rest = .done ((acc ++ [s]) ++ rest) := by
      rcases Decidable.em (rest = []) with rfl | hr
      · simp [resolveWalk]
      · refine ih (acc ++ [s]) (fun _ => ?_) (fun p hp hne hne2 => ?_) (fun _ => ?_)
          (fun c hc => hplain c (List.mem_cons_of_mem s hc))
        · rcases hnode with hd | ⟨data, hd⟩
          · exact (isDirOrRoot_eq_true_iff fs (acc ++ [s])).mpr hd
          · exfalso
            have := h2 [s] ⟨rest, rfl⟩ (List.cons_ne_nil s []) (by
              intro hcon
              have := congrArg List.length hcon
              simp at this
              exact hr this)
            rw [this] at hd; cases hd
        · rw [List.append_assoc]
          exact h2 (s :: p) (by
              rcases hp with ⟨u, rfl⟩; exact ⟨u, rfl⟩)
            (List.cons_ne_nil s p) (by
              intro hcon
              exact hne2 (List.cons.inj hcon).2)
        · rw [List.append_assoc]
          exact h3 (List.cons_ne_nil s rest)
    rcases hnode with hd | ⟨data, hd⟩
    · rw [hd, hcont, List.append_assoc]; rfl
    · rw [hd, hcont, List.append_assoc]; rfl

theorem resolvePath_fixed (fs : FS) (q : AbsPath) (h : ResolvedInv fs q) :
    ∀ fuel, resolvePath fs fuel q = some q := by
  intro fuel
  have hw : resolveWalk fs [] q = .done q := by
    have := resolveWalk_chain fs q []
      (fun _ => by simp [isDirOrRoot, nodeAt])
      (fun p hp hne hne2 => by rw [List.nil_append]; exact h.2.1 p hp hne hne2)
      (fun hne => by
        rw [List.nil_append]
        rcases h.2.2 with hq | hq
        · exact absurd hq hne
        · exact hq)
      h.1
    rw [List.nil_append] at this
    exact this
  unfold resolvePath
  cases fuel <;> simp [resolveFuel, hw]

theorem mem_list_html_files (fs : FS) (fuel : Nat) (base : AbsPath)
    (od : Option PyStr) (f : AbsPath) (h : f ∈ list_html_files fs fuel base od) :
    ∃ p rb, resolvePath fs fuel p = some f ∧ resolvePath fs fuel base = some rb ∧
      rb <+: f ∧ isFileB fs fuel p = true := by
  simp only [list_html_files] at h
  split at h
  · obtain ⟨p, _, hfp⟩ := List.mem_filterMap.mp h
    split at hfp
    · next hfile =>
      split at hfp
      · next rp rb hrp hrb =>
        split at hfp
        · next hpre =>
          have hf : rp = f := Option.some.inj hfp
          exact ⟨p, rb, by rw [hrp, hf], hrb, hf ▸ List.isPrefixOf_iff_prefix.mp hpre, hfile⟩
        · cases hfp
      · cases hfp
    · cases hfp
  · cases h

/-- C1: confinement — every file collected by the directory scan and every
file accepted by exact-path resolution lies, fully canonicalized, beneath
the canonicalized base directory: it is returned in already-resolved form
(a fixed point of `resolvePath` for every fuel) and has the resolved base
as a path prefix.  No path outside the base is ever produced for serving
or listing. -/
theorem c1_confinement (fs : FS) (fuel : Nat) (base : AbsPath) (od : Option PyStr)
    (segs : List PyStr) (f : AbsPath)
    (h : f ∈ list_html_files fs fuel base od ∨ try_serve_exact fs fuel base segs = some f) :
    ∃ rb, resolvePath fs fuel base = some rb ∧ rb <+: f ∧
      ∀ fuel2, resolvePath fs fuel2 f = some f := by
  rcases h with h | h
  · obtain ⟨p, rb, hrp, hrb, hpre, _⟩ := mem_list_html_files fs fuel base od f h
    exact ⟨rb, hrb, hpre,
      resolvePath_fixed fs f (resolvePath_inv fs fuel p f hrp)⟩
  · unfold try_serve_exact at h
    split at h
    · cases h
    · rcases hrp : resolvePath fs fuel
          (pathDiv base
            (if (pyb ".html").isSuffixOf (List.intercalate (pyb "/") segs) = true then
              List.intercalate (pyb "/") segs
            else List.intercalate (pyb "/") segs ++ pyb ".html")) with _ | rp <;>
        simp only [hrp] at h
      · cases h
      · rcases hrb : resolvePath fs fuel base with _ | rb <;> simp only [hrb] at h
        · cases h
        · split at h
          · next hpre =>
            split at h
            · exact ⟨rb, rfl, (Option.some.inj h) ▸ List.isPrefixOf_iff_prefix.mp hpre,
                (Option.some.inj h) ▸
                  resolvePath_fixed fs rp (resolvePath_inv fs fuel _ rp hrp)⟩
            · cases h
          · cases h

/-- A small example tree for concrete instances: `/srv` holding
`silly/forest.html` and `christmas/tree.html`. -/
def exampleFS : FS :=
  [([pyb "srv"], .dir),
   ([pyb "srv", pyb "silly"], .dir),
   ([pyb "srv", pyb "silly", pyb "forest.html"], .file (pyb "FOREST")),
   ([pyb "srv", pyb "christmas"], .dir),
   ([pyb "srv", pyb "christmas", pyb "tree.html"], .file (pyb "TREE"))]

/-- The example base directory `/srv`. -/
def exampleBase : AbsPath := [pyb "srv"]

/-- Concrete instance of `c1_confinement` for a scanned file. -/
theorem c1_witness :
    ([pyb "srv", pyb "silly", pyb "forest.html"] ∈
        list_html_files exampleFS 3 exampleBase none) ∧
    ∃ rb, resolvePath exampleFS 3 exampleBase = some rb ∧
      rb <+: [pyb "srv", pyb "silly", pyb "forest.html"] ∧
      ∀ fuel2, resolvePath exampleFS fuel2 [pyb "srv", pyb "silly", pyb "forest.html"] =
        some [pyb "srv", pyb "silly", pyb "forest.html"] :=
  ⟨by decide, c1_confinement exampleFS 3 exampleBase none [] _ (Or.inl (by decide))⟩

/-! ## Exact-file mode (C4) -/

/-- The candidate path exactly as the specification describes it: segments
joined with `/`, `.html` appended exactly when the joined string does not
already end in `.html`, then resolved against the base directory. -/
def exactCandidate (base : AbsPath) (segs : List PyStr) : AbsPath :=
  pathDiv base
    (if (pyb ".html").isSuffixOf (List.intercalate (pyb "/") segs) then
      List.intercalate (pyb "/") segs
    else List.intercalate (pyb "/") segs ++ pyb ".html")

/-- The acceptance condition of exact-file mode, as the specification words
it: the candidate's canonical path exists, is a regular file, has suffix
`.html`, and is a descendant of the canonicalized base directory. -/
def ExactOk (fs : FS) (fuel : Nat) (base : AbsPath) (segs : List PyStr)
    (r : AbsPath) : Prop :=
  resolvePath fs fuel (exactCandidate base segs) = some r ∧
  (∃ rb, resolvePath fs fuel base = some rb ∧ rb <+: r) ∧
  isFileB fs fuel r = true ∧
  pySuffix (r.getLastD []) = pyb ".html"

theorem try_serve_exact_eq_some_iff (fs : FS) (fuel : Nat) (base : AbsPath)
    (segs : List PyStr) (r : AbsPath) (hlen : 2 ≤ segs.length) :
    try_serve_exact fs fuel base segs = some r ↔ ExactOk fs fuel base segs r := by
  unfold try_serve_exact
  rw [if_neg (by omega)]
  dsimp only
  constructor
  · intro h
    split at h
    · next rp rb hrp hrb =>
      split at h
      · next hpre =>
        split at h
        · next hchecks =>
          have hr : rp = r := Option.some.inj h
          rw [Bool.and_eq_true] at hchecks
          refine ⟨by rw [← hr]; exact hrp, ⟨rb, hrb, hr ▸ List.isPrefixOf_iff_prefix.mp hpre⟩,
            hr ▸ hchecks.1, hr ▸ of_decide_eq_true hchecks.2⟩
        · cases h
      · cases h
    · cases h
  · rintro ⟨hcand, ⟨rb, hrb, hpre⟩, hfile, hsuf⟩
    have hcand' : resolvePath fs fuel
        (pathDiv base
          (if (pyb ".html").isSuffixOf (List.intercalate (pyb "/") segs) = true then
            List.intercalate (pyb "/") segs
          else List.intercalate (pyb "/") segs ++ pyb ".html")) = some r := hcand
    rw [hcand', hrb]
    dsimp only
    rw [if_pos (List.isPrefixOf_iff_prefix.mpr hpre)]
    rw [if_pos (by rw [Bool.and_eq_true]; exact ⟨hfile, decide_eq_true hsuf⟩)]

theorem readBytes_of_isFileB (fs : FS) (fuel : Nat) (p : AbsPath)
    (h : isFileB fs fuel p = true) : ∃ data, readBytes fs fuel p = some data := by
  unfold isFileB at h
  unfold readBytes
  rcases hrp : resolvePath fs fuel p with _ | q
  · simp only [hrp] at h
    simp at h
  · simp only [hrp] at h ⊢
    rcases hn : nodeAt fs q with _ | node
    · simp only [hn] at h
      simp at h
    · simp only [hn] at h ⊢
      rcases node with data | _ | t
      · exact ⟨data, rfl⟩
      · simp at h
      · simp at h

/-- C4: in exact-file mode (no `list` key, 2+ segments) the candidate is the
segments joined with `/` plus `.html` exactly when not already present; when
the candidate's canonical path exists, is a regular file with suffix `.html`
and descends from the canonicalized base, the response is 200 carrying the
file's exact bytes; otherwise the response is the `send_error` 404 page. -/
theorem c4_exact_file_mode (fs : FS) (fuel : Nat) (base : AbsPath) (url : PyStr)
    (rnd : Nat)
    (hnl : hasKeyB (parse_url url).2 (pyb "list") = false)
    (hlen : 2 ≤ (parse_url url).1.length) :
    ((∃ r, ExactOk fs fuel base (parse_url url).1 r) →
      ∃ r data, ExactOk fs fuel base (parse_url url).1 r ∧
        readBytes fs fuel r = some data ∧
        do_GET fs fuel base url rnd =
          some { status := 200
                 headers := [(pyb "Content-Type", ctValue),
                             (pyb "Content-Length", decStr data.length)]
                 body := data }) ∧
    ((¬ ∃ r, ExactOk fs fuel base (parse_url url).1 r) →
      do_GET fs fuel base url rnd = some (send_error 404 (pyb "File not found"))) := by
  have hinv : ¬ (parse_url url).1 = invalidSentinel := by
    intro h; rw [h] at hlen; simp [invalidSentinel] at hlen
  have hnl' : ¬ hasKeyB (parse_url url).2 (pyb "list") = true := by
    rw [hnl]; exact Bool.false_ne_true
  have hget : do_GET fs fuel base url rnd =
      match try_serve_exact fs fuel base (parse_url url).1 with
      | some exact => some (serve_file fs fuel exact)
      | none => some (send_error 404 (pyb "File not found")) := by
    simp only [do_GET, if_neg hinv, if_neg hnl', if_pos hlen]
  rcases hex : try_serve_exact fs fuel base (parse_url url).1 with _ | r
  · refine ⟨fun ⟨r, hok⟩ => ?_, fun _ => by rw [hget, hex]⟩
    have := (try_serve_exact_eq_some_iff fs fuel base (parse_url url).1 r hlen).mpr hok
    rw [hex] at this
    cases this
  · have hok := (try_serve_exact_eq_some_iff fs fuel base (parse_url url).1 r hlen).mp hex
    obtain ⟨data, hdata⟩ := readBytes_of_isFileB fs fuel r hok.2.2.1
    refine ⟨fun _ => ⟨r, data, hok, hdata, ?_⟩, fun hno => absurd ⟨r, hok⟩ hno⟩
    rw [hget, hex]
    dsimp only [serve_file]
    rw [hdata]

/-- Concrete instance of `c4_exact_file_mode`: `/silly/forest` serves the
bytes of `silly/forest.html`. -/
theorem c4_witness :
    ∃ r data, ExactOk exampleFS 3 exampleBase (parse_url (pyb "/silly/forest")).1 r ∧
      readBytes exampleFS 3 r = some data ∧
      do_GET exampleFS 3 exampleBase (pyb "/silly/forest") 0 =
        some { status := 200
               headers := [(pyb "Content-Type", ctValue),
                           (pyb "Content-Length", decStr data.length)]
               body := data } :=
  (c4_exact_file_mode exampleFS 3 exampleBase (pyb "/silly/forest") 0
      (by decide) (by decide)).1
    ⟨[pyb "srv", pyb "silly", pyb "forest.html"],
     by decide, ⟨[pyb "srv"], by decide, by decide⟩, by decide, by decide⟩

/-! ## Listing page (C7) -/

theorem strLe_total : ∀ a b : PyStr, strLe a b = true ∨ strLe b a = true := by
  intro a
  induction a with
  | nil => intro b; exact Or.inl rfl
  | cons x xs ih =>
    intro b
    rcases b with _ | ⟨y, ys⟩
    · exact Or.inr rfl
    · simp only [strLe]
      rcases Nat.lt_trichotomy x y with h | h | h
      · left; rw [if_pos h]
      · subst h
        simp only [if_neg (Nat.lt_irrefl x)]
        exact ih ys
      · right; rw [if_pos h]

theorem strLe_trans : ∀ a b c : PyStr, strLe a b = true → strLe b c = true →
    strLe a c = true := by
  intro a
  induction a with
  | nil => intro b c _ _; rfl
  | cons x xs ih =>
    intro b c hab hbc
    rcases b with _ | ⟨y, ys⟩
    · cases hab
    · rcases c with _ | ⟨z, zs⟩
      · cases hbc
      · simp only [strLe] at hab hbc ⊢
        rcases Nat.lt_trichotomy x y with h1 | h1 | h1
        · rcases Nat.lt_trichotomy y z with h2 | h2 | h2
          · rw [if_pos (Nat.lt_trans h1 h2)]
          · subst h2; rw [if_pos h1]
          · rw [if_pos h2, if_neg (Nat.lt_asymm h2)] at hbc; cases hbc
        · subst h1
          rcases Nat.lt_trichotomy x z with h2 | h2 | h2
          · rw [if_pos h2]
          · subst h2
            rw [if_neg (Nat.lt_irrefl x)] at hab hbc ⊢
            rw [if_neg (Nat.lt_irrefl x)] at hab hbc ⊢
            exact ih _ _ hab hbc
          · rw [if_pos h2, if_neg (Nat.lt_asymm h2)] at hbc; cases hbc
        · rw [if_pos h1, if_neg (Nat.lt_asymm h1)] at hab; cases hab

instance : IsTotal PyStr StrLeP := ⟨strLe_total⟩

instance : IsTrans PyStr StrLeP := ⟨fun a b c => strLe_trans a b c⟩

instance : IsTotal (PyStr × List (PyStr × PyStr)) KeyLeP :=
  ⟨fun a b => strLe_total a.1 b.1⟩

instance : IsTrans (PyStr × List (PyStr × PyStr)) KeyLeP :=
  ⟨fun a b c => strLe_trans a.1 b.1 c.1⟩

instance : IsTotal (PyStr × PyStr) EntLeP := ⟨fun a b => strLe_total a.2 b.2⟩

instance : IsTrans (PyStr × PyStr) EntLeP := ⟨fun a b c => strLe_trans a.2 b.2 c.2⟩

theorem lookup_eq_none_of_not_any (gs : List (PyStr × List (PyStr × PyStr)))
    (d : PyStr) (h : gs.any (fun g => g.1 = d) = false) :
    List.lookup d gs = none := by
  induction gs with
  | nil => rfl
  | cons g gs ih =>
    simp only [List.any_cons, Bool.or_eq_false_iff, decide_eq_false_iff_not] at h
    simp only [List.lookup,
      show (d == g.1) = false from beq_eq_false_iff_ne.mpr (fun hc => h.1 hc.symm)]
    exact ih (by simpa using h.2)

theorem lookup_isSome_of_any (gs : List (PyStr × List (PyStr × PyStr)))
    (d : PyStr) (h : gs.any (fun g => g.1 = d) = true) :
    (List.lookup d gs).isSome = true := by
  induction gs with
  | nil => cases h
  | cons g gs ih =>
    simp only [List.any_cons, Bool.or_eq_true, decide_eq_true_eq] at h
    rcases Decidable.em (g.1 = d) with he | he
    · simp only [List.lookup, show (d == g.1) = true from beq_iff_eq.mpr he.symm]
      rfl
    · simp only [List.lookup,
        show (d == g.1) = false from beq_eq_false_iff_ne.mpr (fun hc => he hc.symm)]
      rcases h with h | h
      · exact absurd h he
      · exact ih (by simpa using h)

theorem lookup_map_update (gs : List (PyStr × List (PyStr × PyStr)))
    (d : PyStr) (e : PyStr × PyStr) :
    List.lookup d (gs.map (fun g => if g.1 = d then (g.1, g.2 ++ [e]) else g)) =
      (List.lookup d gs).map (fun es => es ++ [e]) := by
  induction gs with
  | nil => rfl
  | cons g gs ih =>
    rw [List.map_cons]
    rcases Decidable.em (g.1 = d) with he | he
    · rw [if_pos he]
      simp only [List.lookup, show (d == g.1) = true from beq_iff_eq.mpr he.symm]
      rfl
    · rw [if_neg he]
      simp only [List.lookup,
        show (d == g.1) = false from beq_eq_false_iff_ne.mpr (fun hc => he hc.symm)]
      exact ih

theorem lookup_map_update_ne (gs : List (PyStr × List (PyStr × PyStr)))
    (d d2 : PyStr) (e : PyStr × PyStr) (hne : d2 ≠ d) :
    List.lookup d2 (gs.map (fun g => if g.1 = d then (g.1, g.2 ++ [e]) else g)) =
      List.lookup d2 gs := by
  induction gs with
  | nil => rfl
  | cons g gs ih =>
    rw [List.map_cons]
    rcases Decidable.em (g.1 = d) with he | he
    · rw [if_pos he]
      simp only [List.lookup,
        show (d2 == g.1) = false from beq_eq_false_iff_ne.mpr (fun hc => hne (hc ▸ he))]
      exact ih
    · rw [if_neg he]
      rcases Decidable.em (d2 = g.1) with h2 | h2
      · simp only [List.lookup, show (d2 == g.1) = true from beq_iff_eq.mpr h2]
      · simp only [List.lookup,
          show (d2 == g.1) = false from beq_eq_false_iff_ne.mpr h2]
        exact ih

theorem lookup_append_pair (gs : List (PyStr × List (PyStr × PyStr)))
    (d : PyStr) (v : List (PyStr × PyStr)) (h : List.lookup d gs = none) :
    List.lookup d (gs ++ [(d, v)]) = some v := by
  induction gs with
  | nil => simp [List.lookup]
  | cons g gs ih =>
    rw [List.cons_append]
    simp only [List.lookup] at h ⊢
    rcases Bool.eq_false_or_eq_true (d == g.1) with hbe | hbe
    · simp only [hbe] at h; cases h
    · simp only [hbe] at h ⊢
      exact ih h

theorem lookup_append_pair_ne (gs : List (PyStr × List (PyStr × PyStr)))
    (d d2 : PyStr) (v : List (PyStr × PyStr)) (hne : d2 ≠ d) :
    List.lookup d2 (gs ++ [(d, v)]) = List.lookup d2 gs := by
  induction gs with
  | nil => simp [List.lookup, beq_eq_false_iff_ne.mpr hne]
  | cons g gs ih =>
    rw [List.cons_append]
    simp only [List.lookup]
    rcases Bool.eq_false_or_eq_true (d2 == g.1) with hbe | hbe
    · simp only [hbe]
    · simp only [hbe]
      exact ih

theorem lookup_groupAppend_self (gs : List (PyStr × List (PyStr × PyStr)))
    (d : PyStr) (e : PyStr × PyStr) :
    List.lookup d (groupAppend gs d e) =
      some ((List.lookup d gs).getD [] ++ [e]) := by
  unfold groupAppend
  rcases Bool.eq_false_or_eq_true (gs.any (fun g => g.1 = d)) with hany | hany
  · rw [if_pos hany, lookup_map_update]
    rcases hl : List.lookup d gs with _ | es
    · have := lookup_isSome_of_any gs d hany
      rw [hl] at this; cases this
    · rfl
  · rw [if_neg (by rw [hany]; exact Bool.false_ne_true)]
    rw [lookup_append_pair gs d [e] (lookup_eq_none_of_not_any gs d hany),
      lookup_eq_none_of_not_any gs d hany]
    rfl

theorem lookup_groupAppend_ne (gs : List (PyStr × List (PyStr × PyStr)))
    (d d2 : PyStr) (e : PyStr × PyStr) (hne : d2 ≠ d) :
    List.lookup d2 (groupAppend gs d e) = List.lookup d2 gs := by
  unfold groupAppend
  rcases Bool.eq_false_or_eq_true (gs.any (fun g => g.1 = d)) with hany | hany
  · rw [if_pos hany]
    exact lookup_map_update_ne gs d d2 e hne
  · rw [if_neg (by rw [hany]; exact Bool.false_ne_true)]
    exact lookup_append_pair_ne gs d d2 [e] hne

/-- The entry a single scanned file contributes to directory group `d`. -/
def perFileEntry (rb : AbsPath) (d : PyStr) (f : AbsPath) : Option (PyStr × PyStr) :=
  if rb.isPrefixOf f then
    match f.drop rb.length with
    | d1 :: _ :: _ =>
      if d1 = d then some (hrefName (f.drop rb.length), displayName (f.drop rb.length))
      else none
    | _ => none
  else none

/-- Append newly contributed entries to an optional existing group. -/
def combineG (o : Option (List (PyStr × PyStr))) (l : List (PyStr × PyStr)) :
    Option (List (PyStr × PyStr)) :=
  match o with
  | some es => some (es ++ l)
  | none => if l = [] then none else some l

theorem lookup_listing_foldl (rb : AbsPath) (d : PyStr) (files : List AbsPath) :
    ∀ gs, List.lookup d (files.foldl (fun gs f =>
      if rb.isPrefixOf f then
        match f.drop rb.length with
        | d1 :: _ :: _ =>
          groupAppend gs d1 (hrefName (f.drop rb.length), displayName (f.drop rb.length))
        | _ => gs
      else gs) gs) =
      combineG (List.lookup d gs) (files.filterMap (perFileEntry rb d)) := by
  induction files with
  | nil =>
    intro gs
    rcases h : List.lookup d gs with _ | es <;> simp [combineG, h]
  | cons f fl ih =>
    intro gs
    rw [List.foldl_cons, List.filterMap_cons]
    rcases Bool.eq_false_or_eq_true (rb.isPrefixOf f) with hpre | hpre
    · rw [if_pos hpre]
      rcases hdrop : f.drop rb.length with _ | ⟨d1, _ | ⟨d2, rest⟩⟩
      · have hpfe : perFileEntry rb d f = none := by
          simp [perFileEntry, hpre, hdrop]
        rw [hpfe]
        simp only [hdrop]
        exact ih gs
      · have hpfe : perFileEntry rb d f = none := by
          simp [perFileEntry, hpre, hdrop]
        rw [hpfe]
        simp only [hdrop]
        exact ih gs
      · rcases Decidable.em (d1 = d) with he | he
        · subst he
          have hpfe : perFileEntry rb d1 f =
              some (hrefName (d1 :: d2 :: rest), displayName (d1 :: d2 :: rest)) := by
            simp [perFileEntry, hpre, hdrop]
          rw [hpfe]
          simp only [hdrop]
          rw [ih, lookup_groupAppend_self]
          rcases hl : List.lookup d1 gs with _ | es <;> simp [combineG, hl]
        · have hpfe : perFileEntry rb d f = none := by
            simp [perFileEntry, hpre, hdrop, he]
          rw [hpfe]
          simp only [hdrop]
          rw [ih, lookup_groupAppend_ne gs d1 d _ (fun hc => he hc.symm)]
    · have hpre' : ¬ (List.isPrefixOf rb f = true) := by
        rw [hpre]; exact Bool.false_ne_true
      rw [if_neg hpre']
      have hpfe : perFileEntry rb d f = none := by
        simp only [perFileEntry, if_neg hpre']
      rw [hpfe]
      exact ih gs

theorem lookup_listingGroups (rb : AbsPath) (files : List AbsPath) (d : PyStr) :
    List.lookup d (listingGroups rb files) =
      combineG none ((files.insertionSort PathLeP).filterMap (perFileEntry rb d)) := by
  unfold listingGroups
  rw [lookup_listing_foldl]
  rfl

theorem perFileEntry_eq_some_iff (rb : AbsPath) (d nm dp : PyStr) (f : AbsPath) :
    perFileEntry rb d f = some (nm, dp) ↔
      (rb <+: f ∧ 2 ≤ (f.drop rb.length).length ∧ (f.drop rb.length).headD [] = d ∧
       nm = hrefName (f.drop rb.length) ∧ dp = displayName (f.drop rb.length)) := by
  unfold perFileEntry
  rcases Bool.eq_false_or_eq_true (List.isPrefixOf rb f) with hpre | hpre
  · rw [if_pos hpre]
    have hpre' : rb <+: f := List.isPrefixOf_iff_prefix.mp hpre
    rcases hdrop : f.drop rb.length with _ | ⟨d1, _ | ⟨d2, rest⟩⟩
    · simp [hdrop]
    · simp [hdrop]
    · dsimp only
      rcases Decidable.em (d1 = d) with he | he
      · subst he
        rw [if_pos rfl]
        simp [hdrop, hpre', Prod.ext_iff, eq_comm]
      · rw [if_neg he]
        simp [hdrop, he]
  · have hpre' : ¬ (List.isPrefixOf rb f = true) := by
      rw [hpre]; exact Bool.false_ne_true
    rw [if_neg hpre']
    have hnp : ¬ (rb <+: f) := fun hc => hpre' (List.isPrefixOf_iff_prefix.mpr hc)
    simp [hnp]

theorem mem_listingGroups_iff (rb : AbsPath) (files : List AbsPath) (d nm dp : PyStr) :
    (∃ es, List.lookup d (listingGroups rb files) = some es ∧ (nm, dp) ∈ es) ↔
      ∃ f, f ∈ files ∧ rb <+: f ∧ 2 ≤ (f.drop rb.length).length ∧
        (f.drop rb.length).headD [] = d ∧
        nm = hrefName (f.drop rb.length) ∧ dp = displayName (f.drop rb.length) := by
  constructor
  · rintro ⟨es, hes, hmem⟩
    rw [lookup_listingGroups] at hes
    simp only [combineG] at hes
    split at hes
    · cases hes
    · rw [← Option.some.inj hes] at hmem
      obtain ⟨f, hf, hpfe⟩ := List.mem_filterMap.mp hmem
      exact ⟨f, (List.perm_insertionSort PathLeP files).subset hf,
        (perFileEntry_eq_some_iff rb d nm dp f).mp hpfe⟩
  · rintro ⟨f, hf, hrest⟩
    have hpfe := (perFileEntry_eq_some_iff rb d nm dp f).mpr hrest
    have hmem : (nm, dp) ∈ (files.insertionSort PathLeP).filterMap (perFileEntry rb d) :=
      List.mem_filterMap.mpr
        ⟨f, (List.perm_insertionSort PathLeP files).symm.subset hf, hpfe⟩
    refine ⟨(files.insertionSort PathLeP).filterMap (perFileEntry rb d), ?_, hmem⟩
    rw [lookup_listingGroups]
    simp only [combineG]
    rw [if_neg (List.ne_nil_of_mem hmem)]

theorem filter_cons_false {α : Type} (p : α → Bool) (a : α) (l : List α)
    (h : p a = false) : (a :: l).filter p = l.filter p := by
  simp [List.filter, h]

theorem liStart_not_prefixOf_lt (x : PyStr) :
    (pyb "  <li><a href=\"/").isPrefixOf (60 :: x) = false := by
  rw [show pyb "  <li><a href=\"/" = 32 :: pyb " <li><a href=\"/" from by decide]
  simp [List.isPrefixOf]

theorem filter_listingHeader (t : PyStr) :
    (listingHeader t).filter (fun l => (pyb "  <li><a href=\"/").isPrefixOf l) = [] := by
  have h1 : (pyb "  <li><a href=\"/").isPrefixOf (pyb "<title>" ++ t ++ pyb "</title>")
      = false := by
    rw [show pyb "<title>" = 60 :: pyb "title>" from by decide, List.cons_append,
      List.cons_append]
    exact liStart_not_prefixOf_lt _
  have h2 : (pyb "  <li><a href=\"/").isPrefixOf (pyb "<h1>" ++ t ++ pyb "</h1>") = false := by
    rw [show pyb "<h1>" = 60 :: pyb "h1>" from by decide, List.cons_append, List.cons_append]
    exact liStart_not_prefixOf_lt _
  unfold listingHeader
  rw [filter_cons_false _ _ _ (by decide), filter_cons_false _ _ _ (by decide),
    filter_cons_false _ _ _ h1, filter_cons_false _ _ _ (by decide),
    filter_cons_false _ _ _ (by decide), filter_cons_false _ _ _ (by decide),
    filter_cons_false _ _ _ (by decide), filter_cons_false _ _ _ (by decide),
    filter_cons_false _ _ _ (by decide), filter_cons_false _ _ _ (by decide),
    filter_cons_false _ _ _ (by decide), filter_cons_false _ _ _ (by decide),
    filter_cons_false _ _ _ (by decide), filter_cons_false _ _ _ (by decide),
    filter_cons_false _ _ _ (by decide), filter_cons_false _ _ _ (by decide),
    filter_cons_false _ _ _ h2, filter_cons_false _ _ _ (by decide)]
  rfl

theorem filter_map_liLine (es : List (PyStr × PyStr)) :
    (es.map (fun e => liLine e.1 e.2)).filter
        (fun l => (pyb "  <li><a href=\"/").isPrefixOf l) =
      es.map (fun e => liLine e.1 e.2) := by
  refine List.filter_eq_self.mpr (fun a ha => ?_)
  obtain ⟨e, _, rfl⟩ := List.mem_map.mp ha
  have hform : liLine e.1 e.2 = pyb "  <li><a href=\"/" ++
      (escapeQ e.1 ++ (pyb "\">" ++ (escapeQ e.2 ++ pyb "</a></li>"))) := by
    unfold liLine
    simp [List.append_assoc]
  rw [hform]
  exact List.isPrefixOf_iff_prefix.mpr (List.prefix_append _ _)

theorem filter_groupLines (d : PyStr) (es : List (PyStr × PyStr)) :
    (groupLines d es).filter (fun l => (pyb "  <li><a href=\"/").isPrefixOf l) =
      (es.insertionSort EntLeP).map (fun e => liLine e.1 e.2) := by
  unfold groupLines
  have hh2 : ¬ (pyb "  <li><a href=\"/" <+: pyb "<h2>" ++ (escapeQ d ++ pyb "/</h2><ul>")) := by
    intro hc
    have hb := List.isPrefixOf_iff_prefix.mpr hc
    rw [show pyb "<h2>" = 60 :: pyb "h2>" from by decide, List.cons_append,
      liStart_not_prefixOf_lt] at hb
    exact Bool.false_ne_true hb
  have hul : ¬ (pyb "  <li><a href=\"/" <+: pyb "</ul>") := by decide
  simp [List.filter_cons, List.filter_append, hh2, hul, filter_map_liLine]

theorem filter_listingLines (od : Option PyStr)
    (gs : List (PyStr × List (PyStr × PyStr))) :
    (listingLines od gs).filter (fun l => (pyb "  <li><a href=\"/").isPrefixOf l) =
      (gs.insertionSort KeyLeP).flatMap
        (fun g => (g.2.insertionSort EntLeP).map (fun e => liLine e.1 e.2)) := by
  unfold listingLines
  rw [List.filter_append, List.filter_append, filter_listingHeader,
    filter_cons_false _ _ _ (by decide)]
  rw [List.nil_append, List.filter_nil, List.append_nil]
  induction gs.insertionSort KeyLeP with
  | nil => rfl
  | cons g gl ih =>
    rw [List.flatMap_cons, List.flatMap_cons, List.filter_append, ih, filter_groupLines]

/-- C7: the listing page.  With the base resolving to `rb`: the response is
200 over the rendered lines; an entry `(name, display)` sits in the group of
directory `d` exactly when some discovered file has relative depth ≥ 2 below
`rb` with top-level directory `d`, `name` its suffix-stripped relative path
and `display` its `.html`-stripped filename (files directly under the base
are excluded); groups are rendered in sorted directory order and entries
sorted by display name; and the `<li>` lines of the page are exactly the
escaped links `/name` labelled `display`, in that order. -/
theorem c7_listing_page (fs : FS) (fuel : Nat) (base : AbsPath) (od : Option PyStr)
    (rb : AbsPath) (hrb : resolvePath fs fuel base = some rb) :
    serve_listing fs fuel base od =
      some { status := 200
             headers := [(pyb "Content-Type", ctValue),
                         (pyb "Content-Length",
                          decStr (List.intercalate (pyb "\n")
                            (listingLines od (listingGroups rb
                              (list_html_files fs fuel base od)))).length)]
             body := List.intercalate (pyb "\n")
               (listingLines od (listingGroups rb (list_html_files fs fuel base od))) } ∧
    (∀ d nm dp,
      (∃ es, List.lookup d (listingGroups rb (list_html_files fs fuel base od)) = some es ∧
          (nm, dp) ∈ es) ↔
        ∃ f, f ∈ list_html_files fs fuel base od ∧ rb <+: f ∧
          2 ≤ (f.drop rb.length).length ∧ (f.drop rb.length).headD [] = d ∧
          nm = hrefName (f.drop rb.length) ∧ dp = displayName (f.drop rb.length)) ∧
    List.Sorted KeyLeP
      ((listingGroups rb (list_html_files fs fuel base od)).insertionSort KeyLeP) ∧
    (∀ es, es ∈ (listingGroups rb (list_html_files fs fuel base od)).map Prod.snd →
      List.Sorted EntLeP (es.insertionSort EntLeP)) ∧
    (listingLines od (listingGroups rb (list_html_files fs fuel base od))).filter
        (fun l => (pyb "  <li><a href=\"/").isPrefixOf l) =
      ((listingGroups rb (list_html_files fs fuel base od)).insertionSort KeyLeP).flatMap
        (fun g => (g.2.insertionSort EntLeP).map (fun e => liLine e.1 e.2)) := by
  refine ⟨?_, fun d nm dp => mem_listingGroups_iff rb _ d nm dp,
    List.sorted_insertionSort _ _, fun es _ => List.sorted_insertionSort _ _,
    filter_listingLines od _⟩
  simp only [serve_listing, hrb]

/-- Concrete instance of `c7_listing_page` on the example tree. -/
theorem c7_witness :
    List.Sorted KeyLeP ((listingGroups [pyb "srv"]
      (list_html_files exampleFS 3 exampleBase none)).insertionSort KeyLeP) :=
  (c7_listing_page exampleFS 3 exampleBase none [pyb "srv"] (by decide)).2.2.1

/-! ## Round trip of listing links (C8) -/

theorem rfindByte_append_html (stem : PyStr) :
    rfindByte 46 (stem ++ pyb ".html") = some stem.length := by
  unfold rfindByte
  rw [show pyb ".html" = [46, 104, 116, 109, 108] from by decide, List.reverse_append,
    show ([46, 104, 116, 109, 108] : List Nat).reverse = [108, 109, 116, 104, 46] from by
      decide]
  have hfind : List.findIdx? (fun b => decide (b = 46))
      ([108, 109, 116, 104, 46] ++ stem.reverse) = some 4 := by
    simp [List.findIdx?_cons]
  rw [hfind]
  have hl : (stem ++ [46, 104, 116, 109, 108]).length - 1 - 4 = stem.length := by
    rw [List.length_append, show ([46, 104, 116, 109, 108] : List Nat).length = 5 from rfl]
    omega
  simp [hl]

theorem pySuffix_stem_html (stem : PyStr) (h : stem ≠ []) :
    pySuffix (stem ++ pyb ".html") = pyb ".html" := by
  unfold pySuffix
  rw [rfindByte_append_html]
  dsimp only
  rw [if_pos ⟨List.length_pos.mpr h, by
    rw [List.length_append, show (pyb ".html").length = 5 from by decide]; omega⟩]
  rw [List.drop_left]

theorem withSuffixEmpty_stem_html (stem : PyStr) (h : stem ≠ []) :
    withSuffixEmpty (stem ++ pyb ".html") = stem := by
  unfold withSuffixEmpty
  rw [pySuffix_stem_html stem h]
  rw [List.length_append, show (pyb ".html").length = 5 from by decide,
    show stem.length + 5 - 5 = stem.length from by omega, List.take_left]

theorem removeSuffixHtml_stem_html (stem : PyStr) :
    removeSuffixHtml (stem ++ pyb ".html") = stem := by
  unfold removeSuffixHtml
  rw [if_pos (List.isSuffixOf_iff_suffix.mpr (List.suffix_append stem (pyb ".html")))]
  rw [List.length_append, show (pyb ".html").length = 5 from by decide,
    show stem.length + 5 - 5 = stem.length from by omega, List.take_left]

theorem intercalate47_cons (c c2 : PyStr) (rest : List PyStr) :
    List.intercalate [47] (c :: c2 :: rest) = c ++ 47 :: List.intercalate [47] (c2 :: rest) := by
  simp [List.intercalate, List.intersperse]

theorem intercalate47_snoc (l : List PyStr) (x : PyStr) (h : l ≠ []) :
    List.intercalate [47] (l ++ [x]) = List.intercalate [47] l ++ 47 :: x := by
  induction l with
  | nil => cases h rfl
  | cons c l ih =>
    rcases l with _ | ⟨c2, l'⟩
    · simp [List.intercalate, List.intersperse]
    · rw [show (c :: c2 :: l') ++ [x] = c :: c2 :: (l' ++ [x]) from rfl,
        intercalate47_cons c c2 (l' ++ [x]),
        show c2 :: (l' ++ [x]) = (c2 :: l') ++ [x] from rfl,
        ih (List.cons_ne_nil c2 l'), intercalate47_cons c c2 l']
      simp [List.append_assoc]

theorem mem_intercalate47 (comps : List PyStr) (b : Nat)
    (h : b ∈ List.intercalate [47] comps) : b = 47 ∨ ∃ c ∈ comps, b ∈ c := by
  induction comps with
  | nil => simp [List.intercalate] at h
  | cons c l ih =>
    rcases l with _ | ⟨c2, l'⟩
    · refine Or.inr ⟨c, List.mem_singleton_self c, ?_⟩
      simpa [List.intercalate] using h
    · rw [intercalate47_cons] at h
      rcases List.mem_append.mp h with h | h
      · exact Or.inr ⟨c, List.mem_cons_self c _, h⟩
      · rcases List.mem_cons.mp h with h | h
        · exact Or.inl h
        · rcases ih h with h | ⟨c3, hc3, hb⟩
          · exact Or.inl h
          · exact Or.inr ⟨c3, List.mem_cons_of_mem c hc3, hb⟩

theorem splitByte_ne_nil (d : Nat) (s : PyStr) : splitByte d s ≠ [] := by
  induction s with
  | nil => exact List.cons_ne_nil [] []
  | cons b t ih =>
    simp only [splitByte]
    rcases hs : splitByte d t with _ | ⟨h, tl⟩
    · exact absurd hs ih
    · simp only [hs]
      split <;> simp

theorem splitByte_no_delim (d : Nat) (s : PyStr) (h : d ∉ s) : splitByte d s = [s] := by
  induction s with
  | nil => rfl
  | cons b t ih =>
    have hb : b ≠ d := fun hc => h (hc ▸ List.mem_cons_self b t)
    simp only [splitByte]
    rw [ih (fun hc => h (List.mem_cons_of_mem b hc))]
    dsimp only
    rw [if_neg hb]

theorem splitByte_delim_cons (d : Nat) (t : PyStr) :
    splitByte d (d :: t) = [] :: splitByte d t := by
  simp only [splitByte]
  rcases hs : splitByte d t with _ | ⟨h, tl⟩
  · exact absurd hs (splitByte_ne_nil d t)
  · simp [hs]

theorem splitByte_append_no_delim (d : Nat) (xs ys : PyStr) (h : d ∉ xs) :
    ∀ hh tl, splitByte d ys = hh :: tl → splitByte d (xs ++ ys) = (xs ++ hh) :: tl := by
  induction xs with
  | nil => intro hh tl hy; simpa using hy
  | cons b xs ih =>
    intro hh tl hy
    have hb : b ≠ d := fun hc => h (hc ▸ List.mem_cons_self b xs)
    rw [List.cons_append]
    simp only [splitByte]
    rw [ih (fun hc => h (List.mem_cons_of_mem b hc)) hh tl hy]
    dsimp only
    rw [if_neg hb]
    rfl

theorem splitByte_intercalate (comps : List PyStr) (h : comps ≠ [])
    (hno : ∀ c ∈ comps, (47 : Nat) ∉ c) :
    splitByte 47 (List.intercalate [47] comps) = comps := by
  induction comps with
  | nil => cases h rfl
  | cons c l ih =>
    rcases l with _ | ⟨c2, l'⟩
    · rw [show List.intercalate [47] [c] = c from by simp [List.intercalate]]
      exact splitByte_no_delim 47 c (hno c (List.mem_singleton_self c))
    · rw [intercalate47_cons]
      have hrec := ih (List.cons_ne_nil c2 l')
        (fun c3 hc3 => hno c3 (List.mem_cons_of_mem c hc3))
      rw [splitByte_append_no_delim 47 c _ (hno c (List.mem_cons_self c _)) []
        (splitByte 47 (List.intercalate [47] (c2 :: l')))
        (splitByte_delim_cons 47 _),
        List.append_nil, hrec]

theorem escapeQ_eq_self (s : PyStr)
    (h : ∀ b ∈ s, ¬(b = 38 ∨ b = 60 ∨ b = 62 ∨ b = 34 ∨ b = 39)) : escapeQ s = s := by
  induction s with
  | nil => rfl
  | cons b t ih =>
    have hb := h b (List.mem_cons_self b t)
    unfold escapeQ at ih ⊢
    rw [List.flatMap_cons, ih (fun c hc => h c (List.mem_cons_of_mem b hc))]
    unfold escByte
    rw [if_neg (fun hc => hb (Or.inl hc)), if_neg (fun hc => hb (Or.inr (Or.inl hc))),
      if_neg (fun hc => hb (Or.inr (Or.inr (Or.inl hc)))),
      if_neg (fun hc => hb (Or.inr (Or.inr (Or.inr (Or.inl hc))))),
      if_neg (fun hc => hb (Or.inr (Or.inr (Or.inr (Or.inr hc)))))]
    rfl

theorem unquote_cons_ne (b : Nat) (t : PyStr) (hb : b ≠ 37) :
    unquote (b :: t) = b :: unquote t := by
  rw [unquote.eq_def]
  split
  · rename_i heq; cases heq
  · rename_i heq; exact absurd (List.cons.inj heq).1 hb
  · rename_i heq
    rw [← (List.cons.inj heq).1, ← (List.cons.inj heq).2]

theorem unquote_eq_self (s : PyStr) (h : (37 : Nat) ∉ s) : unquote s = s := by
  induction s with
  | nil => rfl
  | cons b t ih =>
    rw [unquote_cons_ne b t (fun hc => h (hc ▸ List.mem_cons_self b t)),
      ih (fun hc => h (List.mem_cons_of_mem b hc))]

theorem isSubB_eq_false (needle hay : PyStr) (c : Nat) (hc : needle.head? = some c)
    (hmem : c ∉ hay) : isSubB needle hay = false := by
  induction hay with
  | nil =>
    rcases needle with _ | ⟨b, t⟩
    · cases hc
    · rfl
  | cons b rest ih =>
    rcases needle with _ | ⟨n, t⟩
    · cases hc
    · have hn : n = c := Option.some.inj hc
      have hbc : n ≠ b := fun he =>
        hmem (by rw [← hn, he] at hmem ⊢; exact List.mem_cons_self b rest)
      simp only [isSubB, List.isPrefixOf, Bool.or_eq_false_iff, Bool.and_eq_false_iff]
      constructor
      · left
        exact beq_eq_false_iff_ne.mpr hbc
      · exact ih (fun hmem2 => hmem (List.mem_cons_of_mem b hmem2))

theorem stripScheme_slash (s : PyStr) (h : s.headD 0 = 47) : stripScheme s = s := by
  unfold stripScheme
  rcases hf : findByte 58 s with _ | i
  · rfl
  · have hcond : ¬ (0 < i ∧ isAsciiAlpha (s.headD 0) = true ∧
        ((s.drop 1).take (i - 1)).all isSchemeByte = true) := by
      intro hc
      have h2 := hc.2.1
      rw [h] at h2
      exact Bool.false_ne_true h2
    dsimp only
    rw [if_neg hcond]

theorem stripByte_slash (b : Nat) (l : PyStr) (x : Nat) (hb : b ≠ 47) (hx : x ≠ 47) :
    stripByte 47 (47 :: (b :: l ++ [x])) = b :: l ++ [x] := by
  unfold stripByte
  have hrev : (b :: l ++ [x]).reverse = x :: (b :: l).reverse := by
    rw [show b :: l ++ [x] = (b :: l) ++ [x] from rfl, List.reverse_append]
    rfl
  simp [List.dropWhile_cons, hb, hx, hrev]

theorem not_html_suffix (A stem : PyStr)
    (hnoext : ¬ (pyb ".html").isSuffixOf stem = true) :
    (pyb ".html").isSuffixOf (A ++ 47 :: stem) = false := by
  refine Bool.eq_false_iff.mpr (fun hc => ?_)
  have hs : pyb ".html" <:+ A ++ 47 :: stem := List.isSuffixOf_iff_suffix.mp hc
  have hp : (pyb ".html").reverse <+: (A ++ 47 :: stem).reverse :=
    List.reverse_prefix.mpr hs
  have hshape : (A ++ 47 :: stem).reverse = stem.reverse ++ 47 :: A.reverse := by
    rw [show A ++ 47 :: stem = (A ++ [47]) ++ stem from by simp, List.reverse_append,
      List.reverse_append]
    rfl
  rw [hshape, show (pyb ".html").reverse = [108, 109, 116, 104, 46] from by decide] at hp
  rcases Decidable.em (5 ≤ stem.length) with hlen | hlen
  · have htake : ([108, 109, 116, 104, 46] : List Nat) =
        (stem.reverse ++ 47 :: A.reverse).take 5 := by
      have := List.prefix_iff_eq_take.mp hp
      simpa using this
    rw [List.take_append_eq_append_take,
      show (5 - stem.reverse.length) = 0 from by simp [List.length_reverse]; omega] at htake
    rw [List.take_zero, List.append_nil] at htake
    have hpre2 : ([108, 109, 116, 104, 46] : List Nat) <+: stem.reverse := by
      rw [htake]; exact List.take_prefix 5 stem.reverse
    rw [show ([108, 109, 116, 104, 46] : List Nat) = (pyb ".html").reverse from by decide]
      at hpre2
    exact hnoext (List.isSuffixOf_iff_suffix.mpr (List.reverse_prefix.mp hpre2))
  · obtain ⟨u, hu⟩ := hp
    have hk : stem.reverse.length < ([108, 109, 116, 104, 46] : List Nat).length := by
      simp [List.length_reverse]
      omega
    have hL : ([108, 109, 116, 104, 46] ++ u)[stem.reverse.length]? =
        ([108, 109, 116, 104, 46] : List Nat)[stem.reverse.length]? :=
      List.getElem?_append_left hk
    rw [hu] at hL
    have hR : (stem.reverse ++ 47 :: A.reverse)[stem.reverse.length]? = some 47 := by
      rw [List.getElem?_append_right (Nat.le_refl _)]
      simp
    rw [hR] at hL
    have h47 : (47 : Nat) ∈ ([108, 109, 116, 104, 46] : List Nat) :=
      List.getElem?_mem hL.symm
    simp at h47

theorem findByte_eq_none (d : Nat) (s : PyStr) (h : d ∉ s) : findByte d s = none := by
  unfold findByte
  refine List.findIdx?_eq_none_iff.mpr (fun x hx => ?_)
  simp only [decide_eq_false_iff_not]
  intro hc
  exact h (hc ▸ hx)

theorem takeBefore_no_delim (d : Nat) (s : PyStr) (h : d ∉ s) : takeBefore d s = s := by
  unfold takeBefore
  rw [findByte_eq_none d s h]

theorem splitFirst_no_delim (d : Nat) (s : PyStr) (h : d ∉ s) : splitFirst d s = none := by
  unfold splitFirst
  rw [findByte_eq_none d s h]
  rfl

theorem stripByte_47 (N : PyStr) (h1 : N.head? ≠ some 47) (h2 : N.getLast? ≠ some 47) :
    stripByte 47 (47 :: N) = N := by
  have hd : List.dropWhile (fun b => decide (b = 47)) N = N := by
    rcases hN : N with _ | ⟨b, t⟩
    · rfl
    · rw [List.dropWhile_cons_of_neg]
      rw [hN] at h1
      simp only [List.head?_cons] at h1
      simp only [decide_eq_true_eq]
      intro hc
      exact h1 (by rw [hc])
  have hr : List.dropWhile (fun b => decide (b = 47)) N.reverse = N.reverse := by
    rcases hN : N.reverse with _ | ⟨b, t⟩
    · rfl
    · rw [List.dropWhile_cons_of_neg]
      have hb : N.getLast? = some b := by rw [← List.head?_reverse, hN, List.head?_cons]
      simp only [decide_eq_true_eq]
      intro hc
      rw [hc] at hb
      exact h2 hb
  unfold stripByte
  simp [List.dropWhile_cons, hd, hr]

theorem safe_segment_facts (s : PyStr) (h : is_safe_segment s = true) :
    s ≠ [] ∧ s ≠ pyb "." ∧ s.headD 0 ≠ 47 := by
  unfold is_safe_segment at h
  split_ifs at h with h1 h2 h3 h4
  exact ⟨h1, fun hc => h2 (Or.inl hc), fun hc => h4 (by rw [hc]; decide)⟩

theorem intercalate47_cons_decomp (c : PyStr) (l : List PyStr) :
    ∃ t, List.intercalate [47] (c :: l) = c ++ t := by
  rcases l with _ | ⟨c2, l2⟩
  · exact ⟨[], by simp [List.intercalate]⟩
  · exact ⟨47 :: List.intercalate [47] (c2 :: l2), intercalate47_cons c c2 l2⟩

theorem getLast_intercalate47 (l : List PyStr) (c : PyStr) (hc : c ≠ []) :
    (List.intercalate [47] (l ++ [c])).getLast? = c.getLast? := by
  have hc2 : c.dropLast ++ [c.getLast hc] = c := List.dropLast_concat_getLast hc
  rcases hl : l with _ | ⟨c1, l1⟩
  · simp [List.intercalate]
  · rw [intercalate47_snoc (c1 :: l1) c (List.cons_ne_nil c1 l1), ← hc2,
      show List.intercalate [47] (c1 :: l1) ++ 47 :: (c.dropLast ++ [c.getLast hc]) =
        (List.intercalate [47] (c1 :: l1) ++ 47 :: c.dropLast) ++ [c.getLast hc] from by
          simp [List.append_assoc]]
    rw [List.getLast?_concat, List.getLast?_concat]

theorem lookup_mem_pair (k : PyStr) (v : List (PyStr × PyStr))
    (gs : List (PyStr × List (PyStr × PyStr))) (h : List.lookup k gs = some v) :
    (k, v) ∈ gs := by
  induction gs with
  | nil => cases h
  | cons g gs ih =>
    rcases g with ⟨k1, v1⟩
    rw [List.lookup] at h
    rcases hbe : (k == k1) with _ | _
    · rw [hbe] at h
      dsimp only at h
      exact List.mem_cons_of_mem _ (ih h)
    · rw [hbe] at h
      dsimp only at h
      have hk : k = k1 := beq_iff_eq.mp hbe
      have hv : v1 = v := Option.some.inj h
      rw [hk, ← hv]
      exact List.mem_cons_self _ _

/-- A path component whose listing link survives the URL round trip verbatim:
it passes the server's own segment-safety check and avoids every byte that the
HTML escaping, the URL syntax (`%`, `?`, `#`), `html.escape`'s targets, the
`;`-params split, the urlsplit control-byte filter, or `/`-splitting treats
specially. -/
def LinkSafe (s : PyStr) : Prop :=
  is_safe_segment s = true ∧
  ∀ b ∈ s, ¬(b = 37 ∨ b = 63 ∨ b = 35 ∨ b = 38 ∨ b = 60 ∨ b = 62 ∨ b = 34 ∨
    b = 39 ∨ b = 59 ∨ b = 9 ∨ b = 13 ∨ b = 10 ∨ b = 47)

instance : DecidablePred LinkSafe := fun s => by
  unfold LinkSafe
  infer_instance

/-- Filesystem for the C8 counterexample: a served file whose name begins with
a tilde, which the segment sanitizer rejects on the way back in. -/
def c8FS : FS :=
  [([pyb "srv"], .dir),
   ([pyb "srv", pyb "d"], .dir),
   ([pyb "srv", pyb "d", pyb "~a.html"], .file (pyb "X"))]

set_option maxRecDepth 40000 in
/-- C8 counterexample: the file `d/~a.html` appears on the listing page as the
link `<a href="/d/~a">~a</a>`, but requesting that very href yields HTTP 400
(the `~a` segment fails `_is_safe_segment`), so the round trip fails for a file
name that can occur under the base directory. -/
theorem c8_counterexample :
    liLine (pyb "d/~a") (pyb "~a") ∈
      listingLines none (listingGroups [pyb "srv"] (list_html_files c8FS 9 [pyb "srv"] none)) ∧
    do_GET c8FS 9 [pyb "srv"] (pyb "/d/~a") 0 =
      some (send_error 400 (pyb "Invalid path")) := by
  constructor
  · decide
  · decide

theorem parse_url_link (comps : List PyStr) (hne : comps ≠ [])
    (hsafe : ∀ s ∈ comps, LinkSafe s) :
    parse_url (47 :: List.intercalate [47] comps) = (comps, []) := by
  have hban : ∀ s ∈ comps, ∀ b ∈ s,
      b ≠ 37 ∧ b ≠ 63 ∧ b ≠ 35 ∧ b ≠ 38 ∧ b ≠ 60 ∧ b ≠ 62 ∧ b ≠ 34 ∧ b ≠ 39 ∧
      b ≠ 59 ∧ b ≠ 9 ∧ b ≠ 13 ∧ b ≠ 10 ∧ b ≠ 47 := by
    intro s hsm b hb
    have hs := (hsafe s hsm).2 b hb
    push_neg at hs
    exact hs
  have hnb : ∀ d : Nat, d ≠ 47 → (∀ s ∈ comps, ∀ b ∈ s, b ≠ d) →
      d ∉ 47 :: List.intercalate [47] comps := by
    intro d hd hs hmem
    rcases List.mem_cons.mp hmem with h | h
    · exact hd h
    · rcases mem_intercalate47 comps d h with h | ⟨c, hcm, hbc⟩
      · exact hd h
      · exact hs c hcm d hbc rfl
  have h9 : (9 : Nat) ∉ 47 :: List.intercalate [47] comps :=
    hnb 9 (by decide) (fun s hs b hb => (hban s hs b hb).2.2.2.2.2.2.2.2.2.1)
  have h13 : (13 : Nat) ∉ 47 :: List.intercalate [47] comps :=
    hnb 13 (by decide) (fun s hs b hb => (hban s hs b hb).2.2.2.2.2.2.2.2.2.2.1)
  have h10 : (10 : Nat) ∉ 47 :: List.intercalate [47] comps :=
    hnb 10 (by decide) (fun s hs b hb => (hban s hs b hb).2.2.2.2.2.2.2.2.2.2.2.1)
  have h35 : (35 : Nat) ∉ 47 :: List.intercalate [47] comps :=
    hnb 35 (by decide) (fun s hs b hb => (hban s hs b hb).2.2.1)
  have h63 : (63 : Nat) ∉ 47 :: List.intercalate [47] comps :=
    hnb 63 (by decide) (fun s hs b hb => (hban s hs b hb).2.1)
  have h37 : (37 : Nat) ∉ 47 :: List.intercalate [47] comps :=
    hnb 37 (by decide) (fun s hs b hb => (hban s hs b hb).1)
  have h59 : (59 : Nat) ∉ 47 :: List.intercalate [47] comps :=
    hnb 59 (by decide) (fun s hs b hb => (hban s hs b hb).2.2.2.2.2.2.2.2.1)
  have h47c : ∀ c ∈ comps, (47 : Nat) ∉ c := by
    intro c hc hb
    exact (hban c hc 47 hb).2.2.2.2.2.2.2.2.2.2.2.2 rfl
  obtain ⟨c1, cr, hcomps⟩ : ∃ c1 cr, comps = c1 :: cr := by
    rcases comps with _ | ⟨c1, cr⟩
    · exact absurd rfl hne
    · exact ⟨c1, cr, rfl⟩
  obtain ⟨t0, ht0⟩ := intercalate47_cons_decomp c1 cr
  have hc1safe := safe_segment_facts c1
    (hsafe c1 (by rw [hcomps]; exact List.mem_cons_self _ _)).1
  obtain ⟨b0, c1t, hc1⟩ : ∃ b0 c1t, c1 = b0 :: c1t := by
    rcases c1 with _ | ⟨b0, c1t⟩
    · exact absurd rfl hc1safe.1
    · exact ⟨b0, c1t, rfl⟩
  have hb0 : b0 ≠ 47 := by
    have hh := hc1safe.2.2
    rw [hc1] at hh
    exact hh
  have hNcons : List.intercalate [47] comps = b0 :: (c1t ++ t0) := by
    rw [hcomps, ht0, hc1]
    rfl
  have hlastcomp : comps.getLast hne ∈ comps := List.getLast_mem hne
  have hclne : comps.getLast hne ≠ [] := (safe_segment_facts _ (hsafe _ hlastcomp).1).1
  have hNlast : (List.intercalate [47] comps).getLast? ≠ some 47 := by
    have hdec : comps.dropLast ++ [comps.getLast hne] = comps :=
      List.dropLast_concat_getLast hne
    rw [← hdec, getLast_intercalate47 _ _ hclne]
    intro hc
    have hmemc : (47 : Nat) ∈ comps.getLast hne := by
      have hgl := List.getLast?_eq_getLast _ hclne
      rw [hgl] at hc
      have h47 : (comps.getLast hne).getLast hclne = 47 := Option.some.inj hc
      rw [← h47]
      exact List.getLast_mem hclne
    exact h47c _ hlastcomp hmemc
  have hfilter : List.filter (fun b => !(b = 9 || b = 13 || b = 10))
      (47 :: List.intercalate [47] comps) = 47 :: List.intercalate [47] comps := by
    refine List.filter_eq_self.mpr (fun b hb => ?_)
    simp only [Bool.not_eq_true', Bool.or_eq_false_iff, decide_eq_false_iff_not]
    exact ⟨⟨fun hc => h9 (hc ▸ hb), fun hc => h13 (hc ▸ hb)⟩, fun hc => h10 (hc ▸ hb)⟩
  have hsplitPQ : urlsplitPQ (47 :: List.intercalate [47] comps) =
      (47 :: List.intercalate [47] comps, []) := by
    simp only [urlsplitPQ]
    rw [hfilter, stripScheme_slash (47 :: List.intercalate [47] comps) rfl]
    have hnet : ¬ ((47 :: List.intercalate [47] comps).take 2 = [47, 47]) := by
      rw [hNcons]
      intro hc
      have hb1 : ((47 :: b0 :: (c1t ++ t0)).take 2)[1]? = ([47, 47] : List Nat)[1]? :=
        congrArg (fun l => l[1]?) hc
      exact hb0 (Option.some.inj hb1)
    rw [if_neg hnet, takeBefore_no_delim 35 _ h35, splitFirst_no_delim 63 _ h63]
  have hparams : urlparsePath (47 :: List.intercalate [47] comps) =
      47 :: List.intercalate [47] comps := by
    unfold urlparsePath
    rw [hsplitPQ]
    dsimp only
    unfold splitParams
    rw [findByte_eq_none 59 _ h59]
    rfl
  have hquery : urlparseQuery (47 :: List.intercalate [47] comps) = [] := by
    unfold urlparseQuery
    rw [hsplitPQ]
  have hsubf : isSubB (pyb "?list") (47 :: List.intercalate [47] comps) = false :=
    isSubB_eq_false _ _ 63 (by decide) h63
  have hQ : queryDictOf (47 :: List.intercalate [47] comps) = [] := by
    simp only [queryDictOf]
    rw [hquery]
    have hcond : ¬ (¬ hasKeyB (pyDict (parse_qsl ([] : PyStr))) (pyb "list") = true ∧
        isSubB (pyb "?list") (47 :: List.intercalate [47] comps) = true) := by
      intro hcond
      rw [hsubf] at hcond
      exact Bool.false_ne_true hcond.2
    rw [if_neg hcond]
    rfl
  have hunq : unquote (47 :: List.intercalate [47] comps) =
      47 :: List.intercalate [47] comps :=
    unquote_eq_self _ h37
  have hstrip : stripByte 47 (47 :: List.intercalate [47] comps) =
      List.intercalate [47] comps :=
    stripByte_47 _
      (by rw [hNcons, List.head?_cons]; intro hc; exact hb0 (Option.some.inj hc))
      hNlast
  have hsplitB : splitByte 47 (List.intercalate [47] comps) = comps :=
    splitByte_intercalate comps hne h47c
  have hfilcomps : List.filter (fun c => c ≠ []) comps = comps := by
    refine List.filter_eq_self.mpr (fun c hc => ?_)
    exact decide_eq_true ((safe_segment_facts c (hsafe c hc).1).1)
  have hall : comps.all is_safe_segment = true :=
    List.all_eq_true.mpr (fun s hs => (hsafe s hs).1)
  have hroot : ¬ (unquote (urlparsePath (47 :: List.intercalate [47] comps)) = pyb "/") := by
    rw [hparams, hunq, hNcons]
    intro hc
    exact List.cons_ne_nil _ _ (List.cons.inj hc).2
  simp only [parse_url, rawSegmentsOf]
  rw [if_neg hroot, hparams, hunq, hstrip, hsplitB, hfilcomps, if_neg hne, if_pos hall, hQ]

/-- C8 (amended): the listing round trip holds for every listed file whose
link is built from verbatim-surviving segments — the base directory already
canonical (as `main()` establishes at startup), the file at depth ≥ 2 below
it, its name `stem + ".html"` with a nonempty stem that does not itself end
in `.html`, and every link segment `LinkSafe`.  Such a file appears on the
listing page as the link `/<href>` labelled by its stem, the href is left
verbatim by HTML escaping, requesting it parses to exactly the link segments
with no `list` key (exact-file mode), `try_serve_exact` resolves it to the
very same file, and the response is 200 with that file's exact bytes. -/
theorem c8_roundtrip (fs : FS) (fuel : Nat) (base : AbsPath) (od : Option PyStr)
    (f : AbsPath) (rel : List PyStr) (stem : PyStr) (rnd : Nat)
    (hbase : resolvePath fs fuel base = some base)
    (hmem : f ∈ list_html_files fs fuel base od)
    (hf : f = base ++ rel)
    (hlen : 2 ≤ rel.length)
    (hlast : rel.getLast? = some (stem ++ pyb ".html"))
    (hstem : stem ≠ [])
    (hnoext : (pyb ".html").isSuffixOf stem = false)
    (hsafe : ∀ s ∈ rel.dropLast ++ [stem], LinkSafe s) :
    ∃ es data,
      List.lookup (rel.headD []) (listingGroups base (list_html_files fs fuel base od))
        = some es ∧
      (hrefName rel, stem) ∈ es ∧
      (∀ od2, liLine (hrefName rel) stem ∈
        listingLines od2 (listingGroups base (list_html_files fs fuel base od))) ∧
      escapeQ (hrefName rel) = hrefName rel ∧
      displayName rel = stem ∧
      (parse_url (47 :: hrefName rel)).1 = rel.dropLast ++ [stem] ∧
      hasKeyB (parse_url (47 :: hrefName rel)).2 (pyb "list") = false ∧
      try_serve_exact fs fuel base (rel.dropLast ++ [stem]) = some f ∧
      nodeAt fs f = some (.file data) ∧
      do_GET fs fuel base (47 :: hrefName rel) rnd =
        some { status := 200,
               headers := [(pyb "Content-Type", ctValue),
                           (pyb "Content-Length", decStr data.length)],
               body := data } := by
  obtain ⟨p, rb, hrp, hrb, hpre, hfile⟩ := mem_list_html_files fs fuel base od f hmem
  have hinv : ResolvedInv fs f := resolvePath_inv fs fuel p f hrp
  have hfix := resolvePath_fixed fs f hinv
  obtain ⟨data, hnode⟩ : ∃ data, nodeAt fs f = some (.file data) := by
    unfold isFileB at hfile
    simp only [hrp] at hfile
    rcases hn : nodeAt fs f with _ | node
    · simp only [hn] at hfile
      simp at hfile
    · simp only [hn] at hfile
      rcases node with d | _ | t
      · exact ⟨d, rfl⟩
      · simp at hfile
      · simp at hfile
  have hrelne : rel ≠ [] := by
    intro hc
    rw [hc] at hlen
    simp at hlen
  have hAne : rel.dropLast ≠ [] := by
    have hld := List.length_dropLast rel
    intro hc
    rw [hc] at hld
    simp at hld
    omega
  have hgl : rel.getLast hrelne = stem ++ pyb ".html" := by
    have hq := List.getLast?_eq_getLast rel hrelne
    rw [hq] at hlast
    exact Option.some.inj hlast
  have hrel : rel.dropLast ++ [stem ++ pyb ".html"] = rel := by
    rw [← hgl]
    exact List.dropLast_concat_getLast hrelne
  have hgld : rel.getLastD [] = stem ++ pyb ".html" := by
    rw [List.getLastD_eq_getLast?, hlast]
    rfl
  have hhref : hrefName rel = List.intercalate [47] (rel.dropLast ++ [stem]) := by
    unfold hrefName
    rw [hgld, withSuffixEmpty_stem_html stem hstem]
  have hdisp : displayName rel = stem := by
    unfold displayName
    rw [hgld, removeSuffixHtml_stem_html stem]
  have hcompsne : rel.dropLast ++ [stem] ≠ [] := by
    intro hc
    have hl := congrArg List.length hc
    simp at hl
  have hcomplen : 2 ≤ (rel.dropLast ++ [stem]).length := by
    have h1 := List.length_dropLast rel
    have h2 : (rel.dropLast ++ [stem]).length = rel.dropLast.length + 1 := by simp
    omega
  have hpu : parse_url (47 :: hrefName rel) = (rel.dropLast ++ [stem], []) := by
    rw [hhref]
    exact parse_url_link _ hcompsne hsafe
  have hesc : escapeQ (hrefName rel) = hrefName rel := by
    rw [hhref]
    refine escapeQ_eq_self _ (fun b hb => ?_)
    rcases mem_intercalate47 _ b hb with h47 | ⟨c, hc, hbc⟩
    · rw [h47]; decide
    · intro hor
      refine (hsafe c hc).2 b hbc ?_
      rcases hor with h | h | h | h | h
      · exact Or.inr (Or.inr (Or.inr (Or.inl h)))
      · exact Or.inr (Or.inr (Or.inr (Or.inr (Or.inl h))))
      · exact Or.inr (Or.inr (Or.inr (Or.inr (Or.inr (Or.inl h)))))
      · exact Or.inr (Or.inr (Or.inr (Or.inr (Or.inr (Or.inr (Or.inl h))))))
      · exact Or.inr (Or.inr (Or.inr (Or.inr (Or.inr (Or.inr (Or.inr (Or.inl h)))))))
  have hdropf : f.drop base.length = rel := by
    rw [hf]
    exact List.drop_left base rel
  have hlist : ∃ es, List.lookup (rel.headD [])
      (listingGroups base (list_html_files fs fuel base od)) = some es ∧
      (hrefName rel, stem) ∈ es := by
    refine (mem_listingGroups_iff base _ (rel.headD []) (hrefName rel) stem).mpr ?_
    refine ⟨f, hmem, ?_, ?_, ?_, ?_, ?_⟩
    · rw [hf]; exact List.prefix_append base rel
    · rw [hdropf]; exact hlen
    · rw [hdropf]
    · rw [hdropf]
    · rw [hdropf]; exact hdisp.symm
  obtain ⟨es, hes, hmem2⟩ := hlist
  have hline : ∀ od2, liLine (hrefName rel) stem ∈
      listingLines od2 (listingGroups base (list_html_files fs fuel base od)) := by
    intro od2
    unfold listingLines
    refine List.mem_append_left _ (List.mem_append_right _ ?_)
    have hgmem : ((rel.headD []), es) ∈
        (listingGroups base (list_html_files fs fuel base od)).insertionSort KeyLeP :=
      (List.perm_insertionSort KeyLeP _).symm.subset (lookup_mem_pair _ _ _ hes)
    refine List.mem_flatMap.mpr ⟨((rel.headD []), es), hgmem, ?_⟩
    unfold groupLines
    refine List.mem_cons_of_mem _ (List.mem_append_left _ ?_)
    have hent : (hrefName rel, stem) ∈ es.insertionSort EntLeP :=
      (List.perm_insertionSort EntLeP es).symm.subset hmem2
    exact List.mem_map.mpr ⟨(hrefName rel, stem), hent, rfl⟩
  have hslash : pyb "/" = [47] := by decide
  have hjoin : List.intercalate [47] (rel.dropLast ++ [stem]) =
      List.intercalate [47] rel.dropLast ++ 47 :: stem :=
    intercalate47_snoc _ _ hAne
  have hsufF : (pyb ".html").isSuffixOf (List.intercalate [47] (rel.dropLast ++ [stem]))
      = false := by
    rw [hjoin]
    exact not_html_suffix _ stem (by rw [hnoext]; exact Bool.false_ne_true)
  have hcandrel : List.intercalate [47] (rel.dropLast ++ [stem]) ++ pyb ".html" =
      List.intercalate [47] rel := by
    rw [hjoin, ← hrel, intercalate47_snoc _ _ hAne]
    simp [List.append_assoc]
  have h47rel : ∀ c ∈ rel, (47 : Nat) ∉ c := by
    intro c hc
    rw [← hrel] at hc
    rcases List.mem_append.mp hc with h | h
    · intro hb
      exact ((hsafe c (List.mem_append_left _ h)).2 47 hb) (by decide)
    · have hc2 : c = stem ++ pyb ".html" := List.mem_singleton.mp h
      rw [hc2]
      intro hb
      rcases List.mem_append.mp hb with h1 | h1
      · exact ((hsafe stem (List.mem_append_right _ (List.mem_singleton_self _))).2 47 h1)
          (by decide)
      · exact absurd h1 (by decide)
  have hlen5 : (pyb ".html").length = 5 := by decide
  have hfilrel : List.filter (fun c => c ≠ [] ∧ c ≠ pyb ".") rel = rel := by
    refine List.filter_eq_self.mpr (fun c hc => ?_)
    rw [← hrel] at hc
    rcases List.mem_append.mp hc with h | h
    · have hsf := safe_segment_facts c (hsafe c (List.mem_append_left _ h)).1
      exact decide_eq_true ⟨hsf.1, hsf.2.1⟩
    · have hc2 : c = stem ++ pyb ".html" := List.mem_singleton.mp h
      refine decide_eq_true ⟨?_, ?_⟩
      · rw [hc2]
        intro hcon
        have hl := congrArg List.length hcon
        rw [List.length_append, hlen5] at hl
        simp at hl
      · rw [hc2]
        intro hcon
        have hl := congrArg List.length hcon
        rw [List.length_append, hlen5] at hl
        have hl1 : (pyb ".").length = 1 := by decide
        rw [hl1] at hl
        omega
  obtain ⟨a1, A2, hAdec⟩ : ∃ a1 A2, rel.dropLast = a1 :: A2 := by
    rcases hA : rel.dropLast with _ | ⟨a1, A2⟩
    · exact absurd hA hAne
    · exact ⟨a1, A2, rfl⟩
  have ha1safe := safe_segment_facts a1
    (hsafe a1 (List.mem_append_left _ (by rw [hAdec]; exact List.mem_cons_self _ _))).1
  have hreldec : rel = a1 :: (A2 ++ [stem ++ pyb ".html"]) := by
    rw [← hrel, hAdec]
    rfl
  obtain ⟨tI, htI⟩ := intercalate47_cons_decomp a1 (A2 ++ [stem ++ pyb ".html"])
  obtain ⟨ab, a1t, ha1⟩ : ∃ ab a1t, a1 = ab :: a1t := by
    rcases a1 with _ | ⟨ab, a1t⟩
    · exact absurd rfl ha1safe.1
    · exact ⟨ab, a1t, rfl⟩
  have hab : ab ≠ 47 := by
    have hh := ha1safe.2.2
    rw [ha1] at hh
    exact hh
  have hheadD : ¬ ((List.intercalate [47] rel).headD 0 = 47) := by
    rw [hreldec, htI, ha1]
    exact hab
  have hcand : exactCandidate base (rel.dropLast ++ [stem]) = f := by
    unfold exactCandidate
    rw [hslash]
    rw [if_neg (by rw [hsufF]; exact Bool.false_ne_true)]
    rw [hcandrel]
    unfold pathDiv
    rw [if_neg hheadD]
    unfold pathComponents
    rw [splitByte_intercalate rel hrelne h47rel, hfilrel]
    exact hf.symm
  have hexact : try_serve_exact fs fuel base (rel.dropLast ++ [stem]) = some f := by
    refine (try_serve_exact_eq_some_iff fs fuel base _ f hcomplen).mpr ?_
    refine ⟨?_, ⟨base, hbase, ?_⟩, ?_, ?_⟩
    · rw [hcand]
      exact hfix fuel
    · rw [hf]; exact List.prefix_append base rel
    · unfold isFileB
      rw [hfix fuel]
      dsimp only
      rw [hnode]
    · have hflast : f.getLastD [] = stem ++ pyb ".html" := by
        rw [hf, ← hrel, show base ++ (rel.dropLast ++ [stem ++ pyb ".html"]) =
          (base ++ rel.dropLast) ++ [stem ++ pyb ".html"] from (List.append_assoc _ _ _).symm]
        exact List.getLastD_concat _ _ _
      rw [hflast]
      exact pySuffix_stem_html stem hstem
  have hread : readBytes fs fuel f = some data := by
    unfold readBytes
    rw [hfix fuel]
    dsimp only
    rw [hnode]
  have hc1 : ¬ ((rel.dropLast ++ [stem] : List PyStr) = invalidSentinel) := by
    intro hc
    have hl := congrArg List.length hc
    have hsl : invalidSentinel.length = 1 := by decide
    rw [hsl] at hl
    omega
  have hc2 : ¬ (hasKeyB ([] : List (PyStr × PyStr)) (pyb "list") = true) := by decide
  have hdo : do_GET fs fuel base (47 :: hrefName rel) rnd =
      some { status := 200,
             headers := [(pyb "Content-Type", ctValue),
                         (pyb "Content-Length", decStr data.length)],
             body := data } := by
    simp only [do_GET, hpu]
    rw [if_neg hc1, if_neg hc2, if_pos hcomplen, hexact]
    dsimp only
    rw [show serve_file fs fuel f =
      { status := 200,
        headers := [(pyb "Content-Type", ctValue),
                    (pyb "Content-Length", decStr data.length)],
        body := data } from by unfold serve_file; rw [hread]]
  exact ⟨es, data, hes, hmem2, hline, hesc, hdisp, by rw [hpu], by rw [hpu]; rfl, hexact,
    hnode, hdo⟩

set_option maxRecDepth 40000 in
/-- Concrete instance of `c8_roundtrip` on the example tree: the listed file
`silly/forest.html` round-trips through its generated link `/silly/forest`. -/
theorem c8_roundtrip_witness :
    resolvePath exampleFS 9 exampleBase = some exampleBase ∧
    [pyb "srv", pyb "silly", pyb "forest.html"] ∈
      list_html_files exampleFS 9 exampleBase none ∧
    (∀ s ∈ ([pyb "silly", pyb "forest.html"] : List PyStr).dropLast ++ [pyb "forest"],
      LinkSafe s) ∧
    (∃ es data,
      List.lookup (([pyb "silly", pyb "forest.html"] : List PyStr).headD [])
        (listingGroups exampleBase (list_html_files exampleFS 9 exampleBase none))
        = some es ∧
      (hrefName [pyb "silly", pyb "forest.html"], pyb "forest") ∈ es ∧
      (∀ od2, liLine (hrefName [pyb "silly", pyb "forest.html"]) (pyb "forest") ∈
        listingLines od2
          (listingGroups exampleBase (list_html_files exampleFS 9 exampleBase none))) ∧
      escapeQ (hrefName [pyb "silly", pyb "forest.html"]) =
        hrefName [pyb "silly", pyb "forest.html"] ∧
      displayName [pyb "silly", pyb "forest.html"] = pyb "forest" ∧
      (parse_url (47 :: hrefName [pyb "silly", pyb "forest.html"])).1 =
        ([pyb "silly", pyb "forest.html"] : List PyStr).dropLast ++ [pyb "forest"] ∧
      hasKeyB (parse_url (47 :: hrefName [pyb "silly", pyb "forest.html"])).2
        (pyb "list") = false ∧
      try_serve_exact exampleFS 9 exampleBase
        (([pyb "silly", pyb "forest.html"] : List PyStr).dropLast ++ [pyb "forest"]) =
        some [pyb "srv", pyb "silly", pyb "forest.html"] ∧
      nodeAt exampleFS [pyb "srv", pyb "silly", pyb "forest.html"] = some (.file data) ∧
      do_GET exampleFS 9 exampleBase
          (47 :: hrefName [pyb "silly", pyb "forest.html"]) 0 =
        some { status := 200,
               headers := [(pyb "Content-Type", ctValue),
                           (pyb "Content-Length", decStr data.length)],
               body := data }) :=
  ⟨by decide, by decide, by decide,
   c8_roundtrip exampleFS 9 exampleBase none [pyb "srv", pyb "silly", pyb "forest.html"]
     [pyb "silly", pyb "forest.html"] (pyb "forest") 0
     (by decide) (by decide) (by decide) (by decide) (by decide) (by decide) (by decide)
     (by decide)⟩

/-- Membership of a byte in `_WHATWG_C0_CONTROL_OR_SPACE` (bytes 0x00-0x20;
UTF-8 continuation bytes of non-ASCII characters are all at least 0x80, so the
byte-level test is faithful to the character-level strip). -/
def isC0OrSpace (b : Nat) : Bool := b ≤ 32

/-- The netloc `_splitnetloc` extracts: everything after `//` up to the next
`/`, `?` or `#`. -/
def netlocOf (u : PyStr) : PyStr :=
  (u.drop 2).takeWhile (fun b => !(b = 47 || b = 63 || b = 35))

/-- `urllib.parse.urlsplit` reduced to `(path, query)` exactly as patched
CPython (3.11.4+, CVE-2023-24329) computes it, with `none` a raised
`ValueError`: first lstrip the WHATWG C0-control-or-space bytes, then remove
TAB/CR/LF, strip a `scheme:`, drop a `//netloc` — raising when the netloc
contains `[` without `]` or `]` without `[` (the Invalid IPv6 URL error) —
cut the fragment at the first `#`, and split off the query at the first `?`. -/
def urlsplitPQ_strict (url : PyStr) : Option (PyStr × PyStr) :=
  let u0 := url.dropWhile isC0OrSpace
  let u := u0.filter (fun b => !(b = 9 || b = 13 || b = 10))
  let u := stripScheme u
  if u.take 2 = [47, 47] then
    if (netlocOf u).contains 91 && !(netlocOf u).contains 93 ||
        (netlocOf u).contains 93 && !(netlocOf u).contains 91 then none
    else
      let u2 := takeBefore 35 (dropNetloc u)
      match splitFirst 63 u2 with
      | some (p, q) => some (p, q)
      | none => some (u2, [])
  else
    let u2 := takeBefore 35 u
    match splitFirst 63 u2 with
    | some (p, q) => some (p, q)
    | none => some (u2, [])

/-- `parse_url` from `serve.py` over the faithful `urlsplit`: `none` is the
`ValueError` propagating out of `urllib.parse.urlparse` (the handler has no
`except` for it, so the request gets no response at all). -/
def parse_url_strict (url : PyStr) :
    Option (List PyStr × List (PyStr × PyStr)) :=
  match urlsplitPQ_strict url with
  | none => none
  | some pq =>
    let path := unquote (splitParams pq.1)
    let q0 := pyDict (parse_qsl pq.2)
    let query := if ¬ hasKeyB q0 (pyb "list") ∧ isSubB (pyb "?list") url then
        dictInsert q0 (pyb "list") []
      else q0
    if path = pyb "/" then some ([], query)
    else
      let raw_segments := (splitByte 47 (stripByte 47 path)).filter (· ≠ [])
      if raw_segments = [] then some ([], query)
      else if raw_segments.all is_safe_segment then some (raw_segments, query)
      else some (invalidSentinel, query)

/-- The decoded path segments the strict parser derives before validation
(empty when `urlsplit` raises). -/
def rawSegments_strict (url : PyStr) : List PyStr :=
  match urlsplitPQ_strict url with
  | none => []
  | some pq => (splitByte 47 (stripByte 47 (unquote (splitParams pq.1)))).filter (· ≠ [])

/-- `RandomHTMLHandler.do_GET` over the strict URL parser: a `ValueError`
escaping `parse_url` is caught by nothing in `BaseHTTPRequestHandler.handle`,
so the connection closes with no response (`none`). -/
def do_GET_strict (fs : FS) (fuel : Nat) (base : AbsPath) (rawUrl : PyStr)
    (rnd : Nat) : Option Response :=
  match parse_url_strict rawUrl with
  | none => none
  | some sq =>
    let segments := sq.1
    let query := sq.2
    if segments = invalidSentinel then
      some (send_error 400 (pyb "Invalid path"))
    else if hasKeyB query (pyb "list") then
      serve_listing fs fuel base (match segments with | [s] => some s | _ => none)
    else if 2 ≤ segments.length then
      match try_serve_exact fs fuel base segments with
      | some exact => some (serve_file fs fuel exact)
      | none => some (send_error 404 (pyb "File not found"))
    else
      let only_dir := match segments with | [s] => some s | _ => none
      let candidates := list_html_files fs fuel base only_dir
      if candidates = [] then
        some { status := 404
               headers := [(pyb "Content-Type", ctValue)]
               body := notFoundBody only_dir }
      else
        some (serve_file fs fuel (candidates.getD (rnd % candidates.length) []))

theorem urlsplitPQ_strict_agree (url : PyStr) (pr : PyStr × PyStr)
    (hl : url.dropWhile isC0OrSpace = url)
    (h : urlsplitPQ_strict url = some pr) :
    urlsplitPQ url = pr := by
  simp only [urlsplitPQ_strict, hl] at h
  simp only [urlsplitPQ]
  split at h
  · next hc =>
    rw [if_pos hc]
    split at h
    · cases h
    · rcases hsf : splitFirst 63
          (takeBefore 35 (dropNetloc (stripScheme
            (url.filter (fun b => !(b = 9 || b = 13 || b = 10)))))) with _ | pq2
      · rw [hsf] at h
        exact Option.some.inj h
      · rcases pq2 with ⟨p, q⟩
        rw [hsf] at h
        exact Option.some.inj h
  · next hc =>
    rw [if_neg hc]
    rcases hsf : splitFirst 63
        (takeBefore 35 (stripScheme
          (url.filter (fun b => !(b = 9 || b = 13 || b = 10))))) with _ | pq2
    · rw [hsf] at h
      exact Option.some.inj h
    · rcases pq2 with ⟨p, q⟩
      rw [hsf] at h
      exact Option.some.inj h

